import Mathlib

/-
Verification development for the Pintos-style storage stack in this
repository (src/filesys/inode.c, directory.c, filesys.c, free-map.c,
src/lib/kernel/bitmap.c, src/vm/mappings.c, src/vm/swaptbl.c).

The code is shallowly embedded: the on-disk state is modelled explicitly
and each C function of interest becomes a Lean function on that state.
The embedding is sequential: calls execute atomically in program order,
which matches the locking discipline the source documents for each
operation (per-inode advisory rwlock, cache entry locks, free map mutex).
Machine integers are modelled as Nat (or Int for the signed counter);
all quantities involved stay far below their 32-bit bounds except where
noted in doc comments.
-/

/-! Constants, from src/filesys/inode.c and devices/block.h. -/

/-- Size in bytes of a disk sector (BLOCK_SECTOR_SIZE in devices/block.h). -/
def BLOCK_SECTOR_SIZE : Nat := 512

/-- Number of indirect index entries in an inode (inode.c:50). -/
def NUM_INDIRECT : Nat := 64

/-- Size of the inode header in bytes: off_t length (4) + unsigned magic (4)
    + int32_t counter (4), from struct inode_header (inode.c:40). -/
def INODE_HEADER_SIZE : Nat := 12

/-- Number of direct index entries in an inode (inode.c:54):
    (BLOCK_SECTOR_SIZE - sizeof(inode_header_t)) / sizeof(fs_sector_t)
    - NUM_INDIRECT = (512 - 12) / 2 - 64 = 186. -/
def NUM_DIRECT : Nat := (BLOCK_SECTOR_SIZE - INODE_HEADER_SIZE) / 2 - NUM_INDIRECT

/-- Number of child entries of an indirect node (inode.c:70):
    BLOCK_SECTOR_SIZE / sizeof(fs_sector_t) = 256. -/
def INDIRECT_NUM_DIRECT : Nat := BLOCK_SECTOR_SIZE / 2

/-- Sentinel marking an absent sector mapping: (fs_sector_t) -1 = 0xFFFF
    (inode.c:37). -/
def NO_SECTOR : Nat := 65535

/-- Magic marker written into every inode header (inode.c:29). -/
def INODE_MAGIC : Nat := 0x494e4f44

/-- Largest byte offset addressable through the direct plus single-indirect
    index of an inode: (NUM_DIRECT + NUM_INDIRECT * INDIRECT_NUM_DIRECT)
    sectors. Offsets beyond this make the C code index out of bounds, so
    theorems restrict offsets to this region. -/
def MAX_FILE_BYTES : Nat := (NUM_DIRECT + NUM_INDIRECT * INDIRECT_NUM_DIRECT) * BLOCK_SECTOR_SIZE

/-- Writes the bytes of piece into dst starting at position pos, leaving the
    rest of dst unchanged. Models memcpy(dst + pos, piece, piece.length). -/
def listSplice (dst : List Nat) (pos : Nat) (piece : List Nat) : List Nat :=
  dst.take pos ++ piece ++ dst.drop (pos + piece.length)

/-! Bitmap model, from src/lib/kernel/bitmap.c. A bitmap is modelled as the
    list of its bits. bitmap_lowest scans element by element (32 bits at a
    time), skipping elements with no bit of the sought value; the first
    matching bit inside the first non-skipped element is exactly the first
    matching bit of the whole bit array, so the element-granular scan is
    modelled as a linear scan over the bits. (The file-system free map has
    16384 bits, a multiple of the 32-bit element size, so there are no
    partial trailing elements.) -/

/-- Index of the lowest bit equal to value, as bitmap_lowest (bitmap.c:303).
    Returns none when no bit matches (BITMAP_ERROR). -/
def bitmapLowest : List Bool → Bool → Option Nat
  | [], _ => none
  | b :: rest, v => if b = v then some 0 else (bitmapLowest rest v).map (· + 1)

/-- Tests whether any of the cnt bits starting at start equals value, as
    bitmap_contains (bitmap.c:224). Out-of-range tests would be fatal
    assertions in the source; here they read the default false. -/
def bitmapContains (bits : List Bool) (start cnt : Nat) (v : Bool) : Bool :=
  match cnt with
  | 0 => false
  | c + 1 => (bits.getD start false = v) || bitmapContains bits (start + 1) c v

/-- Sets the cnt bits starting at start to value, as bitmap_set_multiple
    (bitmap.c:191). -/
def bitmapSetMultiple (bits : List Bool) (start cnt : Nat) (v : Bool) : List Bool :=
  match cnt with
  | 0 => bits
  | c + 1 => bitmapSetMultiple (bits.set start v) (start + 1) c v

/-- Tests whether every one of the cnt bits starting at start is true, as
    bitmap_all (bitmap.c:257). -/
def bitmapAll (bits : List Bool) (start cnt : Nat) : Bool :=
  ! bitmapContains bits start cnt false

/-- Finds the first group of cnt consecutive bits equal to value at or after
    start, as bitmap_scan (bitmap.c:269): candidate start positions run from
    start to bit count minus cnt. -/
def bitmapScan (bits : List Bool) (start cnt : Nat) (v : Bool) : Option Nat :=
  if cnt ≤ bits.length then
    (List.range' start (bits.length - cnt + 1 - start)).find?
      (fun i => ! bitmapContains bits i cnt (! v))
  else none

/-- Scans for cnt consecutive bits equal to value and flips them, as
    bitmap_scan_and_flip (bitmap.c:293). -/
def bitmapScanAndFlip (bits : List Bool) (start cnt : Nat) (v : Bool) :
    Option (Nat × List Bool) :=
  match bitmapScan bits start cnt v with
  | none => none
  | some idx => some (idx, bitmapSetMultiple bits idx cnt (! v))

/-! Free map, from src/filesys/free-map.c. The free map buffer is guarded by
    its own mutex; each operation below is atomic in the source. -/

/-- Allocates a single sector: finds the lowest clear bit and marks it, as
    free_map_get (free-map.c:31). Returns the sector and the updated map,
    or none if the map is full. -/
def free_map_get (bits : List Bool) : Option (Nat × List Bool) :=
  match bitmapLowest bits false with
  | none => none
  | some sector => some (sector, bits.set sector true)

/-- Releases cnt sectors starting at sector, as free_map_release
    (free-map.c:42). The source asserts bitmap_all on the range before
    clearing; an assertion failure is fatal and is modelled as none. -/
def free_map_release (bits : List Bool) (sector cnt : Nat) : Option (List Bool) :=
  if bitmapAll bits sector cnt then some (bitmapSetMultiple bits sector cnt false)
  else none

/-- Allocates cnt consecutive sectors, as free_map_allocate (free-map.c:19),
    via bitmap_scan_and_flip from position 0 looking for clear bits. -/
def free_map_allocate (bits : List Bool) (cnt : Nat) : Option (Nat × List Bool) :=
  bitmapScanAndFlip bits 0 cnt false

/-! On-disk inode state, from src/filesys/inode.c. -/

/-- On-disk inode (struct inode_disk, inode.c:63): header (length, magic,
    counter) plus NUM_DIRECT direct and NUM_INDIRECT indirect index entries.
    length is an off_t kept nonnegative by the source (inode_create asserts
    length >= 0 and writes only grow it), so it is modelled as Nat; counter
    is a signed 32-bit value mutated by +-1 and -2 and is modelled as Int
    (its magnitude stays far below 2^31 because a directory holds at most
    length / 16 entries). -/
structure InodeDisk where
  length : Nat
  magic : Nat
  counter : Int
  direct : List Nat
  indirect : List Nat

/-- State of the file system as seen through the buffer cache. Sequentially,
    fs_cache_read / fs_cache_write / fs_cache_get behave as direct accesses
    to per-sector contents, so the cache layer itself is transparent. Each
    sector's contents are kept under the view the code uses for it: inodes
    (struct inode_disk), indirect nodes (lists of INDIRECT_NUM_DIRECT child
    entries), and raw data (lists of BLOCK_SECTOR_SIZE bytes). Distinct
    allocated sectors never alias in reachable states (the Wf invariant
    below carries the needed distinctness), which justifies keeping the
    three views in separate maps. freeBits is the free map. -/
structure FsSt where
  inodes : Nat → InodeDisk
  nodes : Nat → List Nat
  data : Nat → List Nat
  freeBits : List Bool

/-- Indirect index entry i of the inode at sector ino. -/
def indEntry (st : FsSt) (ino : Nat) (i : Nat) : Nat :=
  (st.inodes ino).indirect.getD i NO_SECTOR

/-- Pure sector lookup for a sector-granular slot of an inode: the data
    sector recorded for the slot, through the direct table or through an
    indirect node, with NO_SECTOR denoting absence. This is the create=false
    behavior of byte_to_sector (inode.c:104) expressed on the slot number
    pos / BLOCK_SECTOR_SIZE. -/
def slotSectorAux (d : InodeDisk) (nodes : Nat → List Nat) (slot : Nat) : Option Nat :=
  if slot < NUM_DIRECT then
    let e := d.direct.getD slot NO_SECTOR
    if e = NO_SECTOR then none else some e
  else
    let i := (slot - NUM_DIRECT) / INDIRECT_NUM_DIRECT
    let j := (slot - NUM_DIRECT) % INDIRECT_NUM_DIRECT
    let ie := d.indirect.getD i NO_SECTOR
    if ie = NO_SECTOR then none
    else
      let e := (nodes ie).getD j NO_SECTOR
      if e = NO_SECTOR then none else some e

/-- Sector recorded for slot of the inode at sector ino in state st. -/
def slotSector (st : FsSt) (ino : Nat) (slot : Nat) : Option Nat :=
  slotSectorAux (st.inodes ino) st.nodes slot

/-- Models the subnode half of byte_to_sector (inode.c:148, the block
    guarded by subnode != NULL): given the sector nodeSec of an indirect
    node and the within-node index j, optionally allocates the child data
    sector (when create is set and the entry is NO_SECTOR), zero-filling a
    freshly allocated sector as the source does with
    fs_cache_write(ret, NULL) under the allocated flag. -/
def subnodeStep (st : FsSt) (nodeSec : Nat) (j : Nat) (create : Bool) :
    Option Nat × FsSt :=
  let nd := st.nodes nodeSec
  if create ∧ nd.getD j NO_SECTOR = NO_SECTOR then
    match free_map_get st.freeBits with
    | some (sec, fb) =>
      let st1 : FsSt :=
        { st with nodes := fun s => if s = nodeSec then nd.set j sec else st.nodes s,
                  freeBits := fb }
      (some sec,
       { st1 with data := fun s => if s = sec then List.replicate BLOCK_SECTOR_SIZE 0
                                   else st1.data s })
    | none => (none, st)
  else if nd.getD j NO_SECTOR ≠ NO_SECTOR then
    (some (nd.getD j NO_SECTOR), st)
  else (none, st)

/-- Models byte_to_sector (inode.c:104): returns the device sector holding
    byte offset pos of the inode at sector ino, allocating absent sectors
    from the free map when create is true. A freshly allocated indirect node
    has all its child entries initialized to NO_SECTOR (inode.c:136); a
    freshly allocated data sector is zero-filled (inode.c:168). Allocation
    failure leaves the state as the source leaves the cache and yields none
    (the -1 return). -/
def byte_to_sector (st : FsSt) (ino : Nat) (pos : Nat) (create : Bool) :
    Option Nat × FsSt :=
  let d := st.inodes ino
  let sec_off := pos / BLOCK_SECTOR_SIZE
  if sec_off < NUM_DIRECT then
    if create ∧ d.direct.getD sec_off NO_SECTOR = NO_SECTOR then
      match free_map_get st.freeBits with
      | some (sec, fb) =>
        let d' := { d with direct := d.direct.set sec_off sec }
        let st1 : FsSt :=
          { st with inodes := fun s => if s = ino then d' else st.inodes s,
                    freeBits := fb }
        (some sec,
         { st1 with data := fun s => if s = sec then List.replicate BLOCK_SECTOR_SIZE 0
                                     else st1.data s })
      | none => (none, st)
    else if d.direct.getD sec_off NO_SECTOR ≠ NO_SECTOR then
      (some (d.direct.getD sec_off NO_SECTOR), st)
    else (none, st)
  else
    let subnode_i := (sec_off - NUM_DIRECT) / INDIRECT_NUM_DIRECT
    let subnode_j := (sec_off - NUM_DIRECT) % INDIRECT_NUM_DIRECT
    if d.indirect.getD subnode_i NO_SECTOR = NO_SECTOR ∧ create then
      match free_map_get st.freeBits with
      | some (sec, fb) =>
        let d' := { d with indirect := d.indirect.set subnode_i sec }
        let st1 : FsSt :=
          { st with inodes := fun s => if s = ino then d' else st.inodes s,
                    nodes := fun s => if s = sec then List.replicate INDIRECT_NUM_DIRECT NO_SECTOR
                                      else st.nodes s,
                    freeBits := fb }
        subnodeStep st1 sec subnode_j create
      | none => (none, st)
    else if d.indirect.getD subnode_i NO_SECTOR ≠ NO_SECTOR then
      subnodeStep st (d.indirect.getD subnode_i NO_SECTOR) subnode_j create
    else (none, st)

/-- Byte of the inode's logical contents at byte offset off: the byte stored
    in the recorded data sector, or 0 when no sector is recorded (the cache
    serves sector -1 as zeros, fsdisk.c:286). -/
def logicalByte (st : FsSt) (ino : Nat) (off : Nat) : Nat :=
  match slotSector st ino (off / BLOCK_SECTOR_SIZE) with
  | none => 0
  | some s => (st.data s).getD (off % BLOCK_SECTOR_SIZE) 0

/-- Loop body of inode_read_at (inode.c:320). fuel bounds the iteration
    count (each iteration consumes at least one byte of size, so any fuel
    above size is enough; inode_read_at supplies size + 1). Returns the pair
    of bytes_read (the source's accounting value) and the bytes copied to
    the caller's buffer. The source computes the chunk with signed ints and
    breaks when it is not positive; with truncating Nat subtraction the
    chunk is then 0 and the same break happens, so the arithmetic below is
    equivalent. The read-ahead request issued for the next sector
    (inode.c:328) calls byte_to_sector with create=false, which does not
    change the state, and is elided. -/
def read_loop (st : FsSt) (ino : Nat) : Nat → Nat → Nat → Nat × List Nat
  | 0, _, _ => (0, [])
  | _ + 1, 0, _ => (0, [])
  | fuel + 1, size, offset =>
    let inode_left := (st.inodes ino).length - offset
    let sector := (byte_to_sector st ino offset false).1
    let sector_ofs := offset % BLOCK_SECTOR_SIZE
    let sector_left := BLOCK_SECTOR_SIZE - sector_ofs
    let min_left := min inode_left sector_left
    let chunk := min size min_left
    if chunk = 0 then (0, [])
    else
      let bytes := match sector with
        | none => List.replicate BLOCK_SECTOR_SIZE 0
        | some s => st.data s
      let piece := if sector_ofs = 0 ∧ chunk = BLOCK_SECTOR_SIZE then bytes
                   else (bytes.drop sector_ofs).take chunk
      let rest := read_loop st ino fuel (size - chunk) (offset + chunk)
      (chunk + rest.1, piece ++ rest.2)

/-- Models inode_read_at (inode.c:317): reads size bytes starting at byte
    offset. Returns bytes_read and the bytes read. The state is unchanged
    (reads acquire cache entries without the write flag). -/
def inode_read_at (st : FsSt) (ino : Nat) (size offset : Nat) : Nat × List Nat :=
  read_loop st ino (size + 1) size offset

/-- One chunk write of inode_write_at (inode.c:388): a chunk that covers a
    whole sector goes through fs_cache_write, which overwrites the entire
    sector buffer with the next BLOCK_SECTOR_SIZE bytes of buf; a partial
    chunk is spliced into the cached sector at the sector offset. -/
def writeStep (st1 : FsSt) (s : Nat) (buf : List Nat) (offset bw chunk : Nat) : FsSt :=
  { st1 with data := fun x =>
      if x = s then
        if offset % BLOCK_SECTOR_SIZE = 0 ∧ chunk = BLOCK_SECTOR_SIZE then
          (buf.drop bw).take BLOCK_SECTOR_SIZE
        else listSplice (st1.data s) (offset % BLOCK_SECTOR_SIZE) ((buf.drop bw).take chunk)
      else st1.data x }

/-- Loop body of inode_write_at (inode.c:372). fuel bounds the iteration
    count as in read_loop. buf is the caller's buffer; bw is bytes_written
    so far, indexing into buf as the source's buffer + bytes_written does.
    The chunk is the lesser of the remaining size and the bytes left in the
    sector (min_left = sector_left at inode.c:381), and is positive whenever
    size is, so the chunk <= 0 break never fires. -/
def write_loop (st : FsSt) (ino : Nat) (buf : List Nat) :
    Nat → Nat → Nat → Nat → Nat × FsSt
  | 0, _, _, bw => (bw, st)
  | _ + 1, 0, _, bw => (bw, st)
  | fuel + 1, size, offset, bw =>
    match byte_to_sector st ino offset true with
    | (none, st1) => (bw, st1)
    | (some s, st1) =>
      let chunk := min size (BLOCK_SECTOR_SIZE - offset % BLOCK_SECTOR_SIZE)
      write_loop (writeStep st1 s buf offset bw chunk) ino buf fuel
        (size - chunk) (offset + chunk) (bw + chunk)

/-- Models inode_write_at (inode.c:366): writes size bytes of buf at byte
    offset. denyWrite models the in-core deny_write_cnt being nonzero, in
    which case the call returns 0 immediately. After the loop the header is
    re-read and the length grown to the final offset when that exceeds it
    (inode.c:403). Returns bytes_written and the updated state. -/
def inode_write_at (st : FsSt) (ino : Nat) (buf : List Nat) (size offset : Nat)
    (denyWrite : Bool) : Nat × FsSt :=
  if denyWrite then (0, st)
  else
    let r := write_loop st ino buf (size + 1) size offset 0
    let d := (r.2.inodes ino)
    let st2 :=
      if d.length < offset + r.1 then
        { r.2 with inodes := fun s => if s = ino then { d with length := offset + r.1 }
                                      else r.2.inodes s }
      else r.2
    (r.1, st2)

/-- Models inode_create (inode.c:188): writes a fresh inode with the given
    length, the magic marker, counter 0, and every direct and indirect index
    entry set to NO_SECTOR into the given sector, through a no-load cache
    acquisition. Never fails (the source returns true unconditionally). -/
def inode_create (st : FsSt) (sector : Nat) (len : Nat) : Bool × FsSt :=
  (true,
   { st with inodes := fun s =>
       if s = sector then
         { length := len, magic := INODE_MAGIC, counter := 0,
           direct := List.replicate NUM_DIRECT NO_SECTOR,
           indirect := List.replicate NUM_INDIRECT NO_SECTOR }
       else st.inodes s })

/-- Models inode_counter_add (inode.c:442): read-modify-write of the header
    counter under a cache write lock. -/
def counterAdd (st : FsSt) (ino : Nat) (x : Int) : FsSt :=
  { st with inodes := fun s =>
      if s = ino then { st.inodes ino with counter := (st.inodes ino).counter + x }
      else st.inodes s }

/-- Well-formedness of the state as seen from the inode at sector ino. These
    are the invariants the source maintains for reachable inodes: sector
    buffers are sector sized, index tables have their declared lengths, the
    free map covers at most the 16384-sector maximum disk (fsdisk.c:157),
    every sector reachable from the inode (the inode's own sector, each
    recorded indirect node, each recorded data sector) is marked in the free
    map, and all those sectors are pairwise distinct, so that no two views
    of the disk alias. -/
structure Wf (st : FsSt) (ino : Nat) : Prop where
  dataLen : ∀ s, (st.data s).length = BLOCK_SECTOR_SIZE
  nodeLen : ∀ s, (st.nodes s).length = INDIRECT_NUM_DIRECT
  dirLen : (st.inodes ino).direct.length = NUM_DIRECT
  indLen : (st.inodes ino).indirect.length = NUM_INDIRECT
  bitsLe : st.freeBits.length ≤ 16384
  inoMark : st.freeBits.getD ino false = true
  indMark : ∀ i, i < NUM_INDIRECT → indEntry st ino i ≠ NO_SECTOR →
    st.freeBits.getD (indEntry st ino i) false = true
  slotMark : ∀ t a, slotSector st ino t = some a → st.freeBits.getD a false = true
  slotInj : ∀ t u a, slotSector st ino t = some a → slotSector st ino u = some a → t = u
  indInj : ∀ i j, i < NUM_INDIRECT → j < NUM_INDIRECT → indEntry st ino i ≠ NO_SECTOR →
    indEntry st ino j ≠ NO_SECTOR → indEntry st ino i = indEntry st ino j → i = j
  slotInd : ∀ t a i, slotSector st ino t = some a → i < NUM_INDIRECT →
    indEntry st ino i ≠ NO_SECTOR → a ≠ indEntry st ino i
  slotIno : ∀ t a, slotSector st ino t = some a → a ≠ ino
  indIno : ∀ i, i < NUM_INDIRECT → indEntry st ino i ≠ NO_SECTOR → indEntry st ino i ≠ ino

/-- Models the block-freeing phase of inode_close (inode.c:278): when the
    last opener closes a removed inode, every recorded direct data sector is
    released, then for every recorded indirect node its recorded children
    with index below NUM_DIRECT are released (the source's inner loop at
    inode.c:291 runs i < NUM_DIRECT although the indirect node has
    INDIRECT_NUM_DIRECT children) followed by the indirect sector itself,
    and finally the inode's own sector. Returns the resulting free map, or
    none if any free_map_release assertion fails. -/
def inodeCloseFree (st : FsSt) (ino : Nat) : Option (List Bool) :=
  let d := st.inodes ino
  let b1 := (List.range NUM_DIRECT).foldl
    (fun acc i =>
      let e := d.direct.getD i NO_SECTOR
      if e ≠ NO_SECTOR then acc.bind (fun b => free_map_release b e 1) else acc)
    (some st.freeBits)
  let b2 := (List.range NUM_INDIRECT).foldl
    (fun acc i =>
      let e := d.indirect.getD i NO_SECTOR
      if e ≠ NO_SECTOR then
        let sub := st.nodes e
        let acc2 := (List.range NUM_DIRECT).foldl
          (fun a j =>
            let c := sub.getD j NO_SECTOR
            if c ≠ NO_SECTOR then a.bind (fun b => free_map_release b c 1) else a)
          acc
        acc2.bind (fun b => free_map_release b e 1)
      else acc)
    b1
  b2.bind (fun b => free_map_release b ino 1)

/-! Directory layer, from src/filesys/directory.c. Directory entries are
    16-byte records stored in the directory's inode: 14 name bytes followed
    by a 16-bit little-endian word packing inode_sector (bits 0-13), in_use
    (bit 14) and is_dir (bit 15), matching struct dir_entry
    (directory.c:16). File names are modelled as their byte lists without a
    terminating NUL. -/

/-- Maximum file name length (directory.h:13). -/
def NAME_MAX : Nat := 14

/-- Size in bytes of a directory entry. -/
def DIR_ENTRY_SIZE : Nat := 16

/-- Byte list of SELF_STR, the name of the self entry. -/
def SELF_STR : List Nat := [46]

/-- Byte list of PARENT_STR, the name of the parent entry. -/
def PARENT_STR : List Nat := [46, 46]

/-- Default number of preallocated entries of a fresh directory
    (directory.c:24). -/
def DEFAULT_ENTRY_CNT : Nat := 16

/-- Name field (first NAME_MAX bytes) of a raw directory entry. -/
def entryName (e : List Nat) : List Nat := e.take NAME_MAX

/-- Packed 16-bit word of a raw directory entry, little endian. -/
def entryPacked (e : List Nat) : Nat := e.getD 14 0 + 256 * e.getD 15 0

/-- Inode sector of a raw directory entry (bits 0-13 of the packed word). -/
def entrySector (e : List Nat) : Nat := entryPacked e % 16384

/-- In-use flag of a raw directory entry (bit 14 of the packed word). -/
def entryInUse (e : List Nat) : Bool := (entryPacked e / 16384) % 2 = 1

/-- Directory flag of a raw directory entry (bit 15 of the packed word). -/
def entryIsDir (e : List Nat) : Bool := entryPacked e / 32768 = 1

/-- Builds the 16 raw bytes of a directory entry from a 14-byte name field
    and the packed flags. -/
def encodeEntry (name14 : List Nat) (sector : Nat) (in_use is_dir : Bool) : List Nat :=
  let packed := sector % 16384 + (if in_use then 16384 else 0) + (if is_dir then 32768 else 0)
  name14 ++ [packed % 256, packed / 256]

/-- Models dir_entry_set_name (directory.c:30) on the 14-byte name field:
    the name's bytes are copied, one NUL terminator follows when there is
    room, and any bytes beyond it keep their previous contents. -/
def setNameBytes (old14 : List Nat) (nm : List Nat) : List Nat :=
  (nm ++ [0] ++ old14.drop (nm.length + 1)).take NAME_MAX

/-- Tests whether strncmp(a, b, n) would return 0, where a and b are byte
    lists whose ends act as NUL terminators (strncmp stops at a mismatch, at
    a NUL, or after n bytes). -/
def strncmpZ : List Nat → List Nat → Nat → Bool
  | _, _, 0 => true
  | a, b, n + 1 =>
    let x := a.headD 0
    let y := b.headD 0
    if x ≠ y then false
    else if x = 0 then true
    else strncmpZ a.tail b.tail n

/-- Loop of lookup (directory.c:126): scans 16-byte entries from byte
    offset ofs while full entries can be read, returning the first in-use
    entry whose name matches (length-bounded strncmp) together with its
    offset. fuel bounds the iterations; each full read advances the offset
    by 16 bytes and reads stop short past the length, so
    length / 16 + 1 iterations always suffice. -/
def lookupLoop (st : FsSt) (ino : Nat) (name : List Nat) :
    Nat → Nat → Option (List Nat × Nat)
  | 0, _ => none
  | fuel + 1, ofs =>
    let r := inode_read_at st ino DIR_ENTRY_SIZE ofs
    if r.1 = DIR_ENTRY_SIZE then
      if entryInUse r.2 ∧ strncmpZ name (entryName r.2) NAME_MAX then some (r.2, ofs)
      else lookupLoop st ino name fuel (ofs + DIR_ENTRY_SIZE)
    else none

/-- Models lookup (directory.c:120): finds the in-use entry named name in
    the directory whose inode is at sector ino. -/
def dirLookup (st : FsSt) (ino : Nat) (name : List Nat) : Option (List Nat × Nat) :=
  lookupLoop st ino name ((st.inodes ino).length / DIR_ENTRY_SIZE + 1) 0

/-- Free-slot scan of dir_add (directory.c:192): returns the byte offset of
    the first entry not in use, or the end-of-file offset when every full
    entry is in use, together with the entry bytes held in the stack
    variable e at loop exit (the source reuses them when building the new
    entry). e starts as the uninitialized stack entry, modelled as zeros;
    it is only returned if the very first read is already short. -/
def findSlotLoop (st : FsSt) (ino : Nat) : Nat → Nat → List Nat → Nat × List Nat
  | 0, ofs, e => (ofs, e)
  | fuel + 1, ofs, e =>
    let r := inode_read_at st ino DIR_ENTRY_SIZE ofs
    if r.1 = DIR_ENTRY_SIZE then
      if entryInUse r.2 then findSlotLoop st ino fuel (ofs + DIR_ENTRY_SIZE) r.2
      else (ofs, r.2)
    else (ofs, e)

/-- Models dir_add (directory.c:170): rejects empty or overlong names and
    duplicates; otherwise writes a fresh in-use entry at the first free slot
    (or at end of file). success is whether the 16-byte entry write wrote 16
    bytes; the counter is incremented afterwards on both outcomes, exactly
    as the source places inode_counter_add before the exit label, outside
    the success check (directory.c:205). -/
def dir_add (st : FsSt) (ino : Nat) (name : List Nat) (inode_sector : Nat)
    (is_dir : Bool) : Bool × FsSt :=
  if name = [] ∨ NAME_MAX < name.length ∨ (dirLookup st ino name).isSome then (false, st)
  else
    let fuel := (st.inodes ino).length / DIR_ENTRY_SIZE + 1
    let slot := findSlotLoop st ino fuel 0 (List.replicate DIR_ENTRY_SIZE 0)
    let e := encodeEntry (setNameBytes (entryName slot.2) name) inode_sector true is_dir
    let w := inode_write_at st ino e DIR_ENTRY_SIZE slot.1 false
    let success := w.1 = DIR_ENTRY_SIZE
    (success, counterAdd w.2 ino 1)

/-- Models dir_remove (directory.c:213): refuses the self and parent
    entries, looks the name up, clears the entry's in-use bit in place and
    decrements the counter. The source asserts that the clearing write
    writes a full entry (directory.c:232); assertion failure is modelled as
    none. The in-core steps (inode_open, inode_remove marking the child
    removed, inode_close) do not change the on-disk state here because the
    caller still holds the child open. -/
def dir_remove (st : FsSt) (ino : Nat) (name : List Nat) : Option (Bool × FsSt) :=
  if name = PARENT_STR ∨ name = SELF_STR then some (false, st)
  else
    match dirLookup st ino name with
    | none => some (false, st)
    | some (e, ofs) =>
      let e' := encodeEntry (entryName e) (entrySector e) false (entryIsDir e)
      let w := inode_write_at st ino e' DIR_ENTRY_SIZE ofs false
      if w.1 = DIR_ENTRY_SIZE then some (true, counterAdd w.2 ino (-1))
      else none

/-- Number of in-use directory entries other than the self and parent
    entries, read back through inode_read_at: the quantity the spec says the
    stored counter tracks. -/
def dirLiveCount (st : FsSt) (ino : Nat) : Nat :=
  ((List.range ((st.inodes ino).length / DIR_ENTRY_SIZE)).filter (fun k =>
    let r := (inode_read_at st ino DIR_ENTRY_SIZE (DIR_ENTRY_SIZE * k)).2
    entryInUse r && ! strncmpZ SELF_STR (entryName r) NAME_MAX
      && ! strncmpZ PARENT_STR (entryName r) NAME_MAX)).length

/-- Models _dir_create (directory.c:41): creates an inode sized for
    entry_cnt entries, adds the self and parent entries, and compensates the
    counter by -2 on success. The dir_open step only allocates the in-core
    handle and is elided (its failure would be an out-of-memory path). -/
def dir_create_at (st : FsSt) (sector : Nat) (entry_cnt : Nat) (parent : Nat) :
    Bool × FsSt :=
  let c := inode_create st sector (entry_cnt * DIR_ENTRY_SIZE)
  let a1 := dir_add c.2 sector SELF_STR sector true
  if ¬ a1.1 then (false, a1.2)
  else
    let a2 := dir_add a1.2 sector PARENT_STR parent true
    if ¬ a2.1 then (false, a2.2)
    else (true, counterAdd a2.2 sector (-2))

/-- Models dir_create (directory.c:68): creates a directory with the
    default entry count whose parent entry names the parent's inode sector. -/
def dir_create (st : FsSt) (sector : Nat) (parent : Nat) : Bool × FsSt :=
  dir_create_at st sector DEFAULT_ENTRY_CNT parent

/-! File system operations, from src/filesys/filesys.c. Path resolution
    (filesys_locate_parent / filesys_locate_dir) walks the directory tree
    and allocates nothing; the models below start where it has already
    produced the parent directory's inode sector and the terminal name,
    which is where the claims about these functions live. -/

/-- Models filesys_create (filesys.c:34) after filesys_locate_parent has
    succeeded with parent directory inode parent and terminal name name:
    allocates the inode sector via free_map_get, creates a directory or an
    ordinary inode there, adds the directory entry, and on any failure
    releases the allocated sector and reports false. none models the fatal
    assertion inside free_map_release. -/
def filesys_create_core (st : FsSt) (parent : Nat) (name : List Nat)
    (initial_size : Nat) (is_dir : Bool) : Option (Bool × FsSt) :=
  match free_map_get st.freeBits with
  | none => some (false, st)
  | some (sec, fb) =>
    let st1 : FsSt := { st with freeBits := fb }
    let made := if is_dir then dir_create st1 sec parent
                else inode_create st1 sec initial_size
    if ¬ made.1 then
      match free_map_release made.2.freeBits sec 1 with
      | none => none
      | some fb' => some (false, { made.2 with freeBits := fb' })
    else
      let add := dir_add made.2 parent name sec is_dir
      if add.1 then some (true, add.2)
      else
        match free_map_release add.2.freeBits sec 1 with
        | none => none
        | some fb' => some (false, { add.2 with freeBits := fb' })

/-- Models filesys_remove (filesys.c:212) after filesys_locate_parent has
    succeeded: looks the name up in the parent; for a directory, removes it
    only when the in-core open count (openCnt, the value inode_get_open_cnt
    returns at the check, which includes the reference this call's
    dir_lookup took) is at most 1 and the stored counter is 0; an ordinary
    file is removed unconditionally. -/
def filesys_remove_core (st : FsSt) (parent : Nat) (name : List Nat)
    (openCnt : Nat) : Option (Bool × FsSt) :=
  match dirLookup st parent name with
  | none => some (false, st)
  | some (e, _) =>
    if entryIsDir e then
      if openCnt ≤ 1 ∧ (st.inodes (entrySector e)).counter = 0 then
        dir_remove st parent name
      else some (false, st)
    else dir_remove st parent name

/-! Virtual memory eviction, from src/vm/mappings.c and src/vm/swaptbl.c.
    The model covers one mapping and the global swap table; the frame is the
    page of bytes currently backing the mapping, and the backing file is
    abstracted as its byte contents (file_seek plus file_write in
    evict_to_file splice the frame into it). The hardware page directory
    contributes only the page's dirty bit. -/

/-- Size in bytes of a page. -/
def PGSIZE : Nat := 4096

/-- Supplemental page table record (struct vm_mapping, mappings.c:23): the
    flag bits, the file-backed payload (page-granular file offset and the
    size field, which stores max bytes minus 1), and the swap slot. -/
structure VmMapping where
  present : Bool
  writable : Bool
  hasfile : Bool
  fwrite : Bool
  map_start : Bool
  orphaned : Bool
  swapped : Bool
  isstack : Bool
  fileOfs : Nat
  fileSize : Nat
  swap_slot : Nat

/-- State touched by vm_evict_page: the mapping, the frame bytes, the
    page's hardware dirty bit, the swap occupancy bitmap and per-slot
    contents (swaptbl.c:15), and the backing file's bytes. -/
structure VmSt where
  mapping : VmMapping
  frame : List Nat
  dirty : Bool
  swapOcc : List Bool
  swapSlots : Nat → List Nat
  fileBytes : List Nat

/-- Result of vm_evict_page: freed models the orphaned path that frees the
    mapping (mappings.c:321); ok carries the updated state. -/
inductive EvictOut where
  | freed : EvictOut
  | ok : VmSt → EvictOut

/-- Models swaptbl_store (swaptbl.c:40): finds the lowest free swap slot,
    marks it occupied, and writes the page there as eight consecutive
    sectors (modelled as the whole page per slot). Exhaustion is a fatal
    panic, modelled as none. -/
def swaptbl_store (occ : List Bool) (slots : Nat → List Nat) (page : List Nat) :
    Option (Nat × List Bool × (Nat → List Nat)) :=
  match bitmapLowest occ false with
  | none => none
  | some slot =>
    some (slot, occ.set slot true, fun i => if i = slot then page else slots i)

/-- Models evict_to_file (mappings.c:302): seeks the backing file to
    offset * PGSIZE and writes size + 1 bytes of the frame there. -/
def evict_to_file (st : VmSt) : VmSt :=
  let piece := st.frame.take (st.mapping.fileSize + 1)
  { st with fileBytes := listSplice st.fileBytes (st.mapping.fileOfs * PGSIZE) piece }

/-- Models vm_evict_page (mappings.c:315) for a non-null mapping. The
    source asserts present; assertion failure and swap exhaustion are none.
    An orphaned mapping is freed. Otherwise present is cleared, the
    hardware mapping is dropped, and: a clean never-swapped page is just
    released; a dirty file-backed page whose file is writable is written
    back to the file; otherwise the hasfile and fwrite bits are cleared
    when set (the promotion at mappings.c:335) and the frame is stored to a
    fresh swap slot with the swapped bit set. -/
def vm_evict_page (st : VmSt) : Option EvictOut :=
  if ¬ st.mapping.present then none
  else if st.mapping.orphaned then some .freed
  else
    let m1 := { st.mapping with present := false }
    let is_dirty := st.dirty
    let st1 := { st with mapping := m1 }
    if ¬ is_dirty ∧ ¬ m1.swapped then some (.ok st1)
    else if m1.hasfile ∧ m1.fwrite then some (.ok (evict_to_file st1))
    else
      let m2 := if m1.hasfile then { m1 with hasfile := false, fwrite := false } else m1
      match swaptbl_store st1.swapOcc st1.swapSlots st1.frame with
      | none => none
      | some (slot, occ', slots') =>
        some (.ok { st1 with mapping := { m2 with swapped := true, swap_slot := slot },
                             swapOcc := occ', swapSlots := slots' })

/-! Concrete states used to evaluate the operations on explicit inputs. -/

/-- Inode contents of an unused sector: zeroed header, empty index tables
    filled with NO_SECTOR-shaped defaults are not assumed; an unused sector
    simply decodes to this record. -/
def emptyInode : InodeDisk :=
  { length := 0, magic := 0, counter := 0,
    direct := List.replicate NUM_DIRECT NO_SECTOR,
    indirect := List.replicate NUM_INDIRECT NO_SECTOR }

/-- A blank file system state: every inode view empty, every indirect node
    view absent, every data sector zeroed, no free map bits. -/
def fsEmpty : FsSt :=
  { inodes := fun _ => emptyInode,
    nodes := fun _ => List.replicate INDIRECT_NUM_DIRECT NO_SECTOR,
    data := fun _ => List.replicate BLOCK_SECTOR_SIZE 0,
    freeBits := [] }

/-- Pads a name to a full 14-byte name field over a zeroed entry. -/
def padName (nm : List Nat) : List Nat :=
  setNameBytes (List.replicate NAME_MAX 0) nm

/-- Name a, as bytes. -/
def nmA : List Nat := [97]

/-- Name d, as bytes. -/
def nmD : List Nat := [100]

/-- Name x, as bytes. -/
def nmX : List Nat := [120]

/-- State with one open inode at sector 0 over a four-sector free map where
    only the inode's own sector is marked: the smallest state on which a
    write can allocate and succeed. -/
def stW : FsSt := { fsEmpty with freeBits := [true, false, false, false] }

/-- Root directory at sector 0 holding the self and parent entries and an
    ordinary file named a at inode sector 4; the directory's entries live in
    data sector 3. Sectors 0, 3 and 4 are marked in the free map; sectors
    1, 2, 5, 6, 7 are free. -/
def stP : FsSt :=
  { fsEmpty with
    inodes := fun s =>
      if s = 0 then
        { length := DEFAULT_ENTRY_CNT * DIR_ENTRY_SIZE, magic := INODE_MAGIC, counter := 1,
          direct := (List.replicate NUM_DIRECT NO_SECTOR).set 0 3,
          indirect := List.replicate NUM_INDIRECT NO_SECTOR }
      else emptyInode,
    data := fun s =>
      if s = 3 then
        encodeEntry (padName SELF_STR) 0 true true ++
        encodeEntry (padName PARENT_STR) 0 true true ++
        encodeEntry (padName nmA) 4 true false ++
        List.replicate (BLOCK_SECTOR_SIZE - 3 * DIR_ENTRY_SIZE) 0
      else List.replicate BLOCK_SECTOR_SIZE 0,
    freeBits := [true, false, false, true, true, false, false, false] }

/-- Root directory at sector 0 holding the self and parent entries and a
    subdirectory named d whose inode is at sector 5 with counter 0. -/
def stQ : FsSt :=
  { fsEmpty with
    inodes := fun s =>
      if s = 0 then
        { length := DEFAULT_ENTRY_CNT * DIR_ENTRY_SIZE, magic := INODE_MAGIC, counter := 1,
          direct := (List.replicate NUM_DIRECT NO_SECTOR).set 0 3,
          indirect := List.replicate NUM_INDIRECT NO_SECTOR }
      else emptyInode,
    data := fun s =>
      if s = 3 then
        encodeEntry (padName SELF_STR) 0 true true ++
        encodeEntry (padName PARENT_STR) 0 true true ++
        encodeEntry (padName nmD) 5 true true ++
        List.replicate (BLOCK_SECTOR_SIZE - 3 * DIR_ENTRY_SIZE) 0
      else List.replicate BLOCK_SECTOR_SIZE 0,
    freeBits := [true, false, false, true, true, true, false, false] }

/-- Entry bytes of a directory whose 512-byte data sector is completely
    filled: the self and parent entries followed by thirty live files named
    f00 through f29 at inode sectors 4 through 33. -/
def fullDirEntries : List Nat :=
  encodeEntry (padName SELF_STR) 0 true true ++
  encodeEntry (padName PARENT_STR) 0 true true ++
  ((List.range 30).map (fun k =>
    encodeEntry (padName [102, 48 + k / 10, 48 + k % 10]) (4 + k) true false)).flatten

/-- Directory at sector 0 with thirty live children completely filling its
    single data sector (sector 3), stored counter 30, on a free map with no
    clear bit: the next dir_add must grow the file and the growth must fail. -/
def stR : FsSt :=
  { fsEmpty with
    inodes := fun s =>
      if s = 0 then
        { length := 2 * DEFAULT_ENTRY_CNT * DIR_ENTRY_SIZE, magic := INODE_MAGIC, counter := 30,
          direct := (List.replicate NUM_DIRECT NO_SECTOR).set 0 3,
          indirect := List.replicate NUM_INDIRECT NO_SECTOR }
      else emptyInode,
    data := fun s =>
      if s = 3 then fullDirEntries else List.replicate BLOCK_SECTOR_SIZE 0,
    freeBits := List.replicate 40 true }

/-- Removed inode at sector 0 whose only contents hang off indirect node 0
    at sector 2: that node records one data sector, sector 3, at child index
    NUM_DIRECT (valid, since an indirect node has INDIRECT_NUM_DIRECT = 256
    children). Sectors 0, 2 and 3 are marked in the five-bit free map. -/
def stC1 : FsSt :=
  { fsEmpty with
    inodes := fun s =>
      if s = 0 then
        { length := (NUM_DIRECT + NUM_DIRECT + 1) * BLOCK_SECTOR_SIZE, magic := INODE_MAGIC,
          counter := 0,
          direct := List.replicate NUM_DIRECT NO_SECTOR,
          indirect := (List.replicate NUM_INDIRECT NO_SECTOR).set 0 2 }
      else emptyInode,
    nodes := fun s =>
      if s = 2 then (List.replicate INDIRECT_NUM_DIRECT NO_SECTOR).set NUM_DIRECT 3
      else List.replicate INDIRECT_NUM_DIRECT NO_SECTOR,
    freeBits := [true, false, true, true, false] }

/-- Eviction state with one present, non-orphaned, dirty file-backed
    mapping whose file is not writable, a four-byte frame, and one free swap
    slot. -/
def stV : VmSt :=
  { mapping := { present := true, writable := false, hasfile := true, fwrite := false,
                 map_start := false, orphaned := false, swapped := false, isstack := false,
                 fileOfs := 0, fileSize := 3, swap_slot := 0 },
    frame := [1, 2, 3, 4],
    dirty := true,
    swapOcc := [false],
    swapSlots := fun _ => [0],
    fileBytes := [5, 5, 5, 5] }

/-! List helper lemmas. -/

theorem getD_oob {α : Type} (l : List α) (i : Nat) (d : α) (h : l.length ≤ i) :
    l.getD i d = d := by
  induction l generalizing i with
  | nil => rfl
  | cons x xs ih =>
    cases i with
    | zero => simp at h
    | succ j => exact ih j (by simpa using h)

theorem getD_replicate {α : Type} (n i : Nat) (a : α) :
    (List.replicate n a).getD i a = a := by
  induction n generalizing i with
  | zero => rfl
  | succ m ih =>
    cases i with
    | zero => rfl
    | succ j => simpa [List.replicate] using ih j

theorem getD_replicate_lt {α : Type} (n i : Nat) (a d : α) (h : i < n) :
    (List.replicate n a).getD i d = a := by
  induction n generalizing i with
  | zero => omega
  | succ m ih =>
    cases i with
    | zero => rfl
    | succ j => simpa [List.replicate] using ih j (by omega)

theorem getD_drop {α : Type} (l : List α) (a k : Nat) (d : α) :
    (l.drop a).getD k d = l.getD (a + k) d := by
  induction a generalizing l with
  | zero => simp
  | succ b ih =>
    cases l with
    | nil => rfl
    | cons x xs => simpa [Nat.succ_add] using ih xs k

theorem getD_take {α : Type} (l : List α) (n k : Nat) (d : α) (h : k < n) :
    (l.take n).getD k d = l.getD k d := by
  induction l generalizing n k with
  | nil => simp
  | cons x xs ih =>
    cases n with
    | zero => omega
    | succ m =>
      cases k with
      | zero => rfl
      | succ j => simpa using ih m j (by omega)

theorem getD_set_ne {α : Type} (l : List α) (i j : Nat) (v d : α) (h : j ≠ i) :
    (l.set i v).getD j d = l.getD j d := by
  induction l generalizing i j with
  | nil => rfl
  | cons x xs ih =>
    cases i with
    | zero =>
      cases j with
      | zero => omega
      | succ _ => rfl
    | succ i' =>
      cases j with
      | zero => rfl
      | succ j' => simpa using ih i' j' (by omega)

theorem getD_set_self {α : Type} (l : List α) (i : Nat) (v d : α) (h : i < l.length) :
    (l.set i v).getD i d = v := by
  induction l generalizing i with
  | nil => simp at h
  | cons x xs ih =>
    cases i with
    | zero => rfl
    | succ j => simpa using ih j (by simpa using h)

theorem getD_append_lt {α : Type} (l m : List α) (i : Nat) (d : α) (h : i < l.length) :
    (l ++ m).getD i d = l.getD i d := by
  induction l generalizing i with
  | nil => simp at h
  | cons x xs ih =>
    cases i with
    | zero => rfl
    | succ j => simpa using ih j (by simpa using h)

theorem getD_append_ge {α : Type} (l m : List α) (i : Nat) (d : α) (h : l.length ≤ i) :
    (l ++ m).getD i d = m.getD (i - l.length) d := by
  induction l generalizing i with
  | nil => simp
  | cons x xs ih =>
    cases i with
    | zero => simp at h
    | succ j => simpa [Nat.succ_sub_succ] using ih j (by simpa using h)

theorem getD_true_lt (l : List Bool) (i : Nat) (h : l.getD i false = true) :
    i < l.length := by
  by_contra hc
  rw [getD_oob l i false (by omega)] at h
  exact Bool.noConfusion h

theorem getD_set_true (l : List Bool) (i j : Nat) (h : l.getD j false = true) :
    (l.set i true).getD j false = true := by
  by_cases hji : j = i
  · subst hji
    rw [getD_set_self l j true false (getD_true_lt l j h)]
  · rw [getD_set_ne l i j true false hji]; exact h

theorem listSplice_length (dst : List Nat) (pos : Nat) (piece : List Nat)
    (h : pos + piece.length ≤ dst.length) :
    (listSplice dst pos piece).length = dst.length := by
  simp [listSplice]
  omega

theorem getD_splice_in (dst : List Nat) (pos : Nat) (piece : List Nat) (k d : Nat)
    (hk : k < piece.length) (h : pos ≤ dst.length) :
    (listSplice dst pos piece).getD (pos + k) d = piece.getD k d := by
  unfold listSplice
  have hlt : (dst.take pos).length = pos := by simp; omega
  have hlen2 : (dst.take pos ++ piece).length = pos + piece.length := by simp; omega
  rw [getD_append_lt _ _ _ _ (by rw [hlen2]; omega)]
  rw [getD_append_ge _ _ _ _ (by rw [hlt]; omega)]
  rw [hlt]
  congr 1
  omega

theorem getD_splice_out (dst : List Nat) (pos : Nat) (piece : List Nat) (i d : Nat)
    (h : i < pos ∨ pos + piece.length ≤ i) (hp : pos + piece.length ≤ dst.length) :
    (listSplice dst pos piece).getD i d = dst.getD i d := by
  unfold listSplice
  have hlt : (dst.take pos).length = pos := by simp; omega
  have hlen2 : (dst.take pos ++ piece).length = pos + piece.length := by simp; omega
  rcases h with h | h
  · rw [getD_append_lt _ _ _ _ (by rw [hlen2]; omega)]
    rw [getD_append_lt _ _ _ _ (by rw [hlt]; omega)]
    exact getD_take dst pos i d h
  · rw [getD_append_ge _ _ _ _ (by rw [hlen2]; omega)]
    rw [hlen2, getD_drop]
    congr 1
    omega

theorem slice_eq_map_getD (l : List Nat) (a c : Nat) (h : a + c ≤ l.length) :
    (l.drop a).take c = (List.range c).map (fun k => l.getD (a + k) 0) := by
  induction c generalizing a with
  | zero => simp
  | succ m ih =>
    have ha : a < l.length := by omega
    have hdrop : l.drop a = l.getD a 0 :: l.drop (a + 1) := by
      rw [List.drop_eq_getElem_cons ha]
      congr 1
      simp [List.getD_eq_getElem?_getD, List.getElem?_eq_getElem ha]
    have htail : (l.drop (a + 1)).take m
        = (List.range m).map ((fun k => l.getD (a + k) 0) ∘ Nat.succ) := by
      rw [ih (a + 1) (by omega)]
      apply List.map_congr_left
      intro k _
      simp only [Function.comp_apply]
      congr 1
      omega
    rw [List.range_succ_eq_map, List.map_cons, List.map_map, hdrop, List.take_succ_cons, htail]
    norm_num

theorem map_getD_range (l : List Nat) :
    (List.range l.length).map (fun k => l.getD k 0) = l := by
  induction l with
  | nil => rfl
  | cons x xs ih =>
    have htail : (List.range xs.length).map ((fun k => (x :: xs).getD k 0) ∘ Nat.succ)
        = xs := by
      have h1 : (List.range xs.length).map ((fun k => (x :: xs).getD k 0) ∘ Nat.succ)
          = (List.range xs.length).map (fun k => xs.getD k 0) := by
        apply List.map_congr_left
        intro k _
        rfl
      rw [h1, ih]
    rw [List.length_cons, List.range_succ_eq_map, List.map_cons, List.map_map, htail]
    rfl

/-! Bitmap and free map lemmas. -/

theorem bitmapLowest_false_spec (bits : List Bool) (s : Nat)
    (h : bitmapLowest bits false = some s) :
    s < bits.length ∧ bits.getD s false = false ∧
      ∀ t, t < s → bits.getD t false = true := by
  induction bits generalizing s with
  | nil => simp [bitmapLowest] at h
  | cons b rest ih =>
    cases b with
    | false =>
      simp [bitmapLowest] at h
      subst h
      exact ⟨by simp, rfl, fun t ht => by omega⟩
    | true =>
      simp [bitmapLowest] at h
      match hr : bitmapLowest rest false with
      | none => rw [hr] at h; simp at h
      | some s' =>
        rw [hr] at h
        simp at h
        obtain ⟨h1, h2, h3⟩ := ih s' hr
        subst h
        refine ⟨by simp; omega, h2, ?_⟩
        intro t ht
        cases t with
        | zero => rfl
        | succ u => exact h3 u (by omega)

theorem free_map_get_spec (bits : List Bool) (s : Nat) (fb : List Bool)
    (h : free_map_get bits = some (s, fb)) :
    fb = bits.set s true ∧ s < bits.length ∧ bits.getD s false = false ∧
      ∀ t, t < s → bits.getD t false = true := by
  unfold free_map_get at h
  cases hr : bitmapLowest bits false with
  | none => rw [hr] at h; simp at h
  | some s' =>
    rw [hr] at h
    simp at h
    obtain ⟨hs, hfb⟩ := h
    obtain ⟨h1, h2, h3⟩ := bitmapLowest_false_spec bits s' hr
    subst hs
    exact ⟨hfb.symm, h1, h2, h3⟩

theorem length_setMultiple (bits : List Bool) (start cnt : Nat) (v : Bool) :
    (bitmapSetMultiple bits start cnt v).length = bits.length := by
  induction cnt generalizing bits start with
  | zero => rfl
  | succ c ih => simp [bitmapSetMultiple, ih]

theorem getD_setMultiple_out (bits : List Bool) (start cnt : Nat) (v : Bool) (i : Nat)
    (h : i < start ∨ start + cnt ≤ i) :
    (bitmapSetMultiple bits start cnt v).getD i false = bits.getD i false := by
  induction cnt generalizing bits start with
  | zero => rfl
  | succ c ih =>
    show (bitmapSetMultiple (bits.set start v) (start + 1) c v).getD i false = _
    rw [ih (bits.set start v) (start + 1) (by omega)]
    exact getD_set_ne bits start i v false (by omega)

theorem getD_setMultiple_in (bits : List Bool) (start cnt : Nat) (v : Bool) (i : Nat)
    (hlo : start ≤ i) (hhi : i < start + cnt) (hlen : i < bits.length) :
    (bitmapSetMultiple bits start cnt v).getD i false = v := by
  induction cnt generalizing bits start with
  | zero => omega
  | succ c ih =>
    show (bitmapSetMultiple (bits.set start v) (start + 1) c v).getD i false = v
    by_cases hi : i = start
    · subst hi
      rw [getD_setMultiple_out _ _ _ _ _ (Or.inl (by omega))]
      exact getD_set_self bits i v false hlen
    · exact ih (bits.set start v) (start + 1) (by omega) (by omega) (by simpa using hlen)

theorem bitmapContains_iff (bits : List Bool) (start cnt : Nat) (v : Bool) :
    bitmapContains bits start cnt v = true ↔
      ∃ k, k < cnt ∧ bits.getD (start + k) false = v := by
  induction cnt generalizing start with
  | zero => simp [bitmapContains]
  | succ c ih =>
    show ((bits.getD start false = v) || bitmapContains bits (start + 1) c v) = true ↔ _
    rw [Bool.or_eq_true, decide_eq_true_iff, ih (start + 1)]
    constructor
    · rintro (h | ⟨k, hk, h⟩)
      · exact ⟨0, by omega, by simpa using h⟩
      · exact ⟨k + 1, by omega, by rw [show start + (k + 1) = start + 1 + k by omega]; exact h⟩
    · rintro ⟨k, hk, h⟩
      cases k with
      | zero => exact Or.inl (by simpa using h)
      | succ u =>
        exact Or.inr ⟨u, by omega, by rw [show start + 1 + u = start + (u + 1) by omega]; exact h⟩

theorem bitmapAll_iff (bits : List Bool) (start cnt : Nat) :
    bitmapAll bits start cnt = true ↔
      ∀ k, k < cnt → bits.getD (start + k) false = true := by
  unfold bitmapAll
  rw [Bool.not_eq_eq_eq_not, Bool.not_true]
  constructor
  · intro h k hk
    by_contra hc
    have : bitmapContains bits start cnt false = true :=
      (bitmapContains_iff bits start cnt false).mpr ⟨k, hk, by
        cases hb : bits.getD (start + k) false with
        | false => rfl
        | true => exact absurd hb hc⟩
    rw [this] at h
    exact Bool.noConfusion h
  · intro h
    cases hb : bitmapContains bits start cnt false with
    | false => rfl
    | true =>
      obtain ⟨k, hk, hv⟩ := (bitmapContains_iff bits start cnt false).mp hb
      rw [h k hk] at hv
      exact Bool.noConfusion hv

theorem free_map_release_isSome (bits : List Bool) (s cnt : Nat) :
    (free_map_release bits s cnt).isSome = true ↔
      ∀ k, k < cnt → bits.getD (s + k) false = true := by
  unfold free_map_release
  by_cases h : bitmapAll bits s cnt = true
  · rw [if_pos h]
    simp only [Option.isSome_some, true_iff]
    intro k hk
    exact (bitmapAll_iff bits s cnt).mp h k hk
  · rw [if_neg h]
    constructor
    · intro hc
      exact absurd hc (by simp)
    · intro hc
      exact absurd ((bitmapAll_iff bits s cnt).mpr hc) h

theorem free_map_release_some (bits : List Bool) (s cnt : Nat) (b : List Bool)
    (h : free_map_release bits s cnt = some b) :
    b = bitmapSetMultiple bits s cnt false ∧
      ∀ k, k < cnt → bits.getD (s + k) false = true := by
  unfold free_map_release at h
  by_cases hall : bitmapAll bits s cnt = true
  · rw [if_pos hall] at h
    exact ⟨(Option.some.injEq _ _ ▸ h).symm, (bitmapAll_iff bits s cnt).mp hall⟩
  · rw [if_neg hall] at h
    exact absurd h (Option.noConfusion)

theorem bitmapScan_some (bits : List Bool) (start cnt : Nat) (v : Bool) (idx : Nat)
    (h : bitmapScan bits start cnt v = some idx) :
    start ≤ idx ∧ idx + cnt ≤ bits.length := by
  unfold bitmapScan at h
  by_cases hc : cnt ≤ bits.length
  · rw [if_pos hc] at h
    have hm := List.mem_of_find?_eq_some h
    have := (List.mem_range'_1).mp hm
    omega
  · rw [if_neg hc] at h
    exact absurd h Option.noConfusion

theorem free_map_allocate_some (bits : List Bool) (cnt : Nat) (a : Nat) (fb : List Bool)
    (h : free_map_allocate bits cnt = some (a, fb)) :
    fb = bitmapSetMultiple bits a cnt true ∧ a + cnt ≤ bits.length := by
  unfold free_map_allocate bitmapScanAndFlip at h
  cases hs : bitmapScan bits 0 cnt false with
  | none => rw [hs] at h; exact absurd h Option.noConfusion
  | some idx =>
    rw [hs] at h
    simp at h
    obtain ⟨hia, hfb⟩ := h
    obtain ⟨_, hb⟩ := bitmapScan_some bits 0 cnt false idx hs
    subst hia
    exact ⟨hfb.symm, hb⟩

/-! The create=false path of byte_to_sector is the pure lookup slotSector
    and leaves the state unchanged. -/

theorem byte_to_sector_false (st : FsSt) (ino pos : Nat) :
    byte_to_sector st ino pos false =
      (slotSector st ino (pos / BLOCK_SECTOR_SIZE), st) := by
  unfold byte_to_sector slotSector slotSectorAux subnodeStep
  simp only [Bool.false_eq_true, false_and, and_false, if_false]
  split
  · split
    · simp_all
    · simp_all
  · split
    · split
      · simp_all
      · simp_all
    · simp_all

/-! Reading: inode_read_at returns the logical bytes of the inode. -/

theorem logical_piece (st : FsSt) (ino offset c : Nat)
    (hd : ∀ s, (st.data s).length = BLOCK_SECTOR_SIZE)
    (hc2 : offset % BLOCK_SECTOR_SIZE + c ≤ BLOCK_SECTOR_SIZE) :
    (if offset % BLOCK_SECTOR_SIZE = 0 ∧ c = BLOCK_SECTOR_SIZE then
       (match slotSector st ino (offset / BLOCK_SECTOR_SIZE) with
        | none => List.replicate BLOCK_SECTOR_SIZE 0
        | some s => st.data s)
     else ((match slotSector st ino (offset / BLOCK_SECTOR_SIZE) with
        | none => List.replicate BLOCK_SECTOR_SIZE 0
        | some s => st.data s).drop (offset % BLOCK_SECTOR_SIZE)).take c)
    = (List.range c).map (fun k => logicalByte st ino (offset + k)) := by
  have h512 : BLOCK_SECTOR_SIZE = 512 := rfl
  set bytes := (match slotSector st ino (offset / BLOCK_SECTOR_SIZE) with
    | none => List.replicate BLOCK_SECTOR_SIZE 0
    | some s => st.data s) with hbytes
  have hblen : bytes.length = BLOCK_SECTOR_SIZE := by
    rw [hbytes]
    cases slotSector st ino (offset / BLOCK_SECTOR_SIZE) with
    | none => simp
    | some s => exact hd s
  have hpt : ∀ k, k < c →
      bytes.getD (offset % BLOCK_SECTOR_SIZE + k) 0 = logicalByte st ino (offset + k) := by
    intro k hk
    have hdiv : (offset + k) / BLOCK_SECTOR_SIZE = offset / BLOCK_SECTOR_SIZE := by
      rw [h512] at hc2 ⊢; omega
    have hmod : (offset + k) % BLOCK_SECTOR_SIZE = offset % BLOCK_SECTOR_SIZE + k := by
      rw [h512] at hc2 ⊢; omega
    unfold logicalByte
    rw [hdiv, hmod]
    cases hs2 : slotSector st ino (offset / BLOCK_SECTOR_SIZE) with
    | none =>
      rw [hbytes, hs2]
      exact getD_replicate BLOCK_SECTOR_SIZE _ 0
    | some s =>
      rw [hbytes, hs2]
  by_cases hfast : offset % BLOCK_SECTOR_SIZE = 0 ∧ c = BLOCK_SECTOR_SIZE
  · rw [if_pos hfast]
    obtain ⟨hf1, hf2⟩ := hfast
    have hmr := map_getD_range bytes
    rw [hblen, ← hf2] at hmr
    rw [← hmr]
    apply List.map_congr_left
    intro k hk
    have hkc : k < c := List.mem_range.mp hk
    rw [← hpt k hkc, hf1]
    simp
  · rw [if_neg hfast]
    rw [slice_eq_map_getD bytes _ c (by rw [hblen]; omega)]
    apply List.map_congr_left
    intro k hk
    exact hpt k (List.mem_range.mp hk)

theorem read_loop_spec (st : FsSt) (ino : Nat)
    (hd : ∀ s, (st.data s).length = BLOCK_SECTOR_SIZE) :
    ∀ fuel size offset, size < fuel → offset + size ≤ (st.inodes ino).length →
      read_loop st ino fuel size offset =
        (size, (List.range size).map (fun k => logicalByte st ino (offset + k))) := by
  intro fuel
  induction fuel with
  | zero => intro size offset hs _; omega
  | succ f ih =>
    intro size offset hs hl
    match size with
    | 0 => rfl
    | sz + 1 =>
      have h512 : BLOCK_SECTOR_SIZE = 512 := rfl
      simp only [read_loop, byte_to_sector_false]
      have hchunk : min (sz + 1) (min ((st.inodes ino).length - offset)
            (BLOCK_SECTOR_SIZE - offset % BLOCK_SECTOR_SIZE))
          = min (sz + 1) (BLOCK_SECTOR_SIZE - offset % BLOCK_SECTOR_SIZE) := by
        rw [h512] at *
        omega
      rw [hchunk]
      set c := min (sz + 1) (BLOCK_SECTOR_SIZE - offset % BLOCK_SECTOR_SIZE) with hcdef
      have hc1 : 0 < c := by rw [hcdef, h512]; omega
      have hcle : c ≤ sz + 1 := by rw [hcdef]; omega
      have hc2 : offset % BLOCK_SECTOR_SIZE + c ≤ BLOCK_SECTOR_SIZE := by
        rw [hcdef, h512]; omega
      rw [if_neg (by omega)]
      rw [ih (sz + 1 - c) (offset + c) (by omega) (by omega)]
      rw [logical_piece st ino offset c hd hc2]
      refine Prod.ext (by simp; omega) ?_
      show (List.range c).map (fun k => logicalByte st ino (offset + k)) ++
          (List.range (sz + 1 - c)).map (fun k => logicalByte st ino (offset + c + k))
        = (List.range (sz + 1)).map (fun k => logicalByte st ino (offset + k))
      rw [show sz + 1 = c + (sz + 1 - c) by omega, List.range_add, List.map_append,
          List.map_map]
      rw [show c + (sz + 1 - c) - c = sz + 1 - c by omega]
      congr 1
      apply List.map_congr_left
      intro k _
      simp only [Function.comp_apply]
      congr 1
      omega

theorem inode_read_at_spec (st : FsSt) (ino size offset : Nat)
    (hd : ∀ s, (st.data s).length = BLOCK_SECTOR_SIZE)
    (hl : offset + size ≤ (st.inodes ino).length) :
    inode_read_at st ino size offset =
      (size, (List.range size).map (fun k => logicalByte st ino (offset + k))) :=
  read_loop_spec st ino hd (size + 1) size offset (by omega) hl

/-! Writing: preservation of the well-formedness invariant under the state
    updates byte_to_sector performs with create=true. -/

theorem getD_ne_default {α : Type} (l : List α) (i : Nat) (d : α) (h : l.getD i d ≠ d) :
    i < l.length := by
  by_contra hc
  rw [getD_oob l i d (by omega)] at h
  exact h rfl

theorem fresh_ne (bits : List Bool) (f a : Nat) (hf : bits.getD f false = false)
    (ha : bits.getD a false = true) : a ≠ f := by
  intro h
  rw [h, hf] at ha
  exact Bool.noConfusion ha

/-- Rebuilds Wf after an update that records the fresh sector f (whose free
    map bit was clear and is now set) at exactly one previously empty slot,
    leaving every other slot, every indirect entry, and all lengths intact. -/
theorem wf_of_slot_update (st st2 : FsSt) (ino slot f : Nat)
    (hwf : Wf st ino)
    (hS : ∀ t, slotSector st2 ino t = if t = slot then some f else slotSector st ino t)
    (hfr : st.freeBits.getD f false = false)
    (hf_lt : f < st.freeBits.length)
    (hfb : st2.freeBits = st.freeBits.set f true)
    (hind : ∀ i, indEntry st2 ino i = indEntry st ino i)
    (hdata : ∀ s, (st2.data s).length = BLOCK_SECTOR_SIZE)
    (hnode : ∀ s, (st2.nodes s).length = INDIRECT_NUM_DIRECT)
    (hdir : (st2.inodes ino).direct.length = NUM_DIRECT)
    (hindl : (st2.inodes ino).indirect.length = NUM_INDIRECT) : Wf st2 ino := by
  have hlen2 : st2.freeBits.length = st.freeBits.length := by rw [hfb]; simp
  refine ⟨hdata, hnode, hdir, hindl, by rw [hlen2]; exact hwf.bitsLe, ?_, ?_, ?_, ?_, ?_, ?_, ?_, ?_⟩
  · rw [hfb]
    exact getD_set_true _ _ _ hwf.inoMark
  · intro i hi hne
    rw [hind i] at hne ⊢
    rw [hfb]
    exact getD_set_true _ _ _ (hwf.indMark i hi hne)
  · intro t a ha
    rw [hS t] at ha
    by_cases ht : t = slot
    · rw [if_pos ht] at ha
      injection ha with hfa
      subst hfa
      rw [hfb]
      exact getD_set_self _ _ _ _ hf_lt
    · rw [if_neg ht] at ha
      rw [hfb]
      exact getD_set_true _ _ _ (hwf.slotMark t a ha)
  · intro t u a ht hu
    rw [hS t] at ht
    rw [hS u] at hu
    by_cases h1 : t = slot <;> by_cases h2 : u = slot
    · omega
    · rw [if_pos h1] at ht
      rw [if_neg h2] at hu
      injection ht with hfa
      subst hfa
      exact absurd rfl (fresh_ne st.freeBits f f hfr (hwf.slotMark u f hu))
    · rw [if_neg h1] at ht
      rw [if_pos h2] at hu
      injection hu with hfa
      subst hfa
      exact absurd rfl (fresh_ne st.freeBits f f hfr (hwf.slotMark t f ht))
    · rw [if_neg h1] at ht
      rw [if_neg h2] at hu
      exact hwf.slotInj t u a ht hu
  · intro i j hi hj hni hnj hij
    rw [hind i] at hni
    rw [hind j] at hnj
    rw [hind i, hind j] at hij
    exact hwf.indInj i j hi hj hni hnj hij
  · intro t a i ha hi hne
    rw [hS t] at ha
    rw [hind i] at hne ⊢
    by_cases ht : t = slot
    · rw [if_pos ht] at ha
      injection ha with hfa
      subst hfa
      exact (fresh_ne st.freeBits f _ hfr (hwf.indMark i hi hne)).symm
    · rw [if_neg ht] at ha
      exact hwf.slotInd t a i ha hi hne
  · intro t a ha
    rw [hS t] at ha
    by_cases ht : t = slot
    · rw [if_pos ht] at ha
      injection ha with hfa
      subst hfa
      exact (fresh_ne st.freeBits f ino hfr hwf.inoMark).symm
    · rw [if_neg ht] at ha
      exact hwf.slotIno t a ha
  · intro i hi hne
    rw [hind i] at hne ⊢
    exact hwf.indIno i hi hne

/-- Rebuilds Wf after installing the fresh sector f (bit previously clear,
    now set) as a new indirect node in the previously empty indirect entry
    i, with every slot lookup unchanged (the fresh node's children are all
    NO_SECTOR). -/
theorem wf_of_ind_install (st st2 : FsSt) (ino i f : Nat)
    (hwf : Wf st ino)
    (hS : ∀ t, slotSector st2 ino t = slotSector st ino t)
    (hind : ∀ i', indEntry st2 ino i' = if i' = i then f else indEntry st ino i')
    (hfr : st.freeBits.getD f false = false)
    (hf_lt : f < st.freeBits.length)
    (hfb : st2.freeBits = st.freeBits.set f true)
    (hdata : ∀ s, (st2.data s).length = BLOCK_SECTOR_SIZE)
    (hnode : ∀ s, (st2.nodes s).length = INDIRECT_NUM_DIRECT)
    (hdir : (st2.inodes ino).direct.length = NUM_DIRECT)
    (hindl : (st2.inodes ino).indirect.length = NUM_INDIRECT) : Wf st2 ino := by
  have hlen2 : st2.freeBits.length = st.freeBits.length := by rw [hfb]; simp
  refine ⟨hdata, hnode, hdir, hindl, by rw [hlen2]; exact hwf.bitsLe, ?_, ?_, ?_, ?_, ?_, ?_, ?_, ?_⟩
  · rw [hfb]
    exact getD_set_true _ _ _ hwf.inoMark
  · intro i' hi' hne
    rw [hind i'] at hne ⊢
    by_cases hii : i' = i
    · rw [if_pos hii] at hne ⊢
      rw [hfb]
      exact getD_set_self _ _ _ _ hf_lt
    · rw [if_neg hii] at hne ⊢
      rw [hfb]
      exact getD_set_true _ _ _ (hwf.indMark i' hi' hne)
  · intro t a ha
    rw [hS t] at ha
    rw [hfb]
    exact getD_set_true _ _ _ (hwf.slotMark t a ha)
  · intro t u a ht hu
    rw [hS t] at ht
    rw [hS u] at hu
    exact hwf.slotInj t u a ht hu
  · intro i1 i2 hi1 hi2 hn1 hn2 h12
    rw [hind i1] at hn1 h12
    rw [hind i2] at hn2 h12
    by_cases e1 : i1 = i <;> by_cases e2 : i2 = i
    · omega
    · rw [if_pos e1] at h12
      rw [if_neg e2] at hn2 h12
      exact absurd rfl (fresh_ne st.freeBits f f hfr (h12 ▸ hwf.indMark i2 hi2 hn2))
    · rw [if_neg e1] at hn1 h12
      rw [if_pos e2] at h12
      exact absurd rfl (fresh_ne st.freeBits f f hfr (h12 ▸ hwf.indMark i1 hi1 hn1))
    · rw [if_neg e1] at hn1 h12
      rw [if_neg e2] at hn2 h12
      exact hwf.indInj i1 i2 hi1 hi2 hn1 hn2 h12
  · intro t a i' ha hi' hne
    rw [hS t] at ha
    rw [hind i'] at hne ⊢
    by_cases hii : i' = i
    · rw [if_pos hii] at hne ⊢
      exact fresh_ne st.freeBits f a hfr (hwf.slotMark t a ha)
    · rw [if_neg hii] at hne ⊢
      exact hwf.slotInd t a i' ha hi' hne
  · intro t a ha
    rw [hS t] at ha
    exact hwf.slotIno t a ha
  · intro i' hi' hne
    rw [hind i'] at hne ⊢
    by_cases hii : i' = i
    · rw [if_pos hii] at hne ⊢
      exact (fresh_ne st.freeBits f ino hfr hwf.inoMark).symm
    · rw [if_neg hii] at hne ⊢
      exact hwf.indIno i' hi' hne

/-- Effect of the direct-slot allocation inside byte_to_sector: the fresh
    sector f is recorded in direct entry slot and zero-filled; everything
    else is untouched. -/
theorem shapeA_spec (st st2 : FsSt) (ino slot f : Nat) (fb : List Bool)
    (hwf : Wf st ino) (hslot : slot < NUM_DIRECT)
    (hget : free_map_get st.freeBits = some (f, fb))
    (h2i : st2.inodes = fun s => if s = ino then
        { st.inodes ino with direct := (st.inodes ino).direct.set slot f }
      else st.inodes s)
    (h2n : st2.nodes = st.nodes)
    (h2d : st2.data = fun s => if s = f then List.replicate BLOCK_SECTOR_SIZE 0
      else st.data s)
    (h2f : st2.freeBits = fb) :
    Wf st2 ino ∧ slotSector st2 ino slot = some f ∧
    (∀ t, t ≠ slot → slotSector st2 ino t = slotSector st ino t) ∧
    (∀ a, st.freeBits.getD a false = true → st2.data a = st.data a) ∧
    (st2.inodes ino).length = (st.inodes ino).length ∧
    (st2.inodes ino).counter = (st.inodes ino).counter ∧
    (∀ b, st.freeBits.getD b false = true → st2.freeBits.getD b false = true) ∧
    st2.freeBits.length = st.freeBits.length := by
  obtain ⟨hfb, hflt, hfr, _⟩ := free_map_get_spec st.freeBits f fb hget
  have hfNO : f ≠ NO_SECTOR := by
    have := hwf.bitsLe
    unfold NO_SECTOR
    omega
  have hdir2 : (st2.inodes ino).direct = (st.inodes ino).direct.set slot f := by
    rw [h2i]; simp
  have hind2 : (st2.inodes ino).indirect = (st.inodes ino).indirect := by
    rw [h2i]; simp
  have hS : ∀ t, slotSector st2 ino t = if t = slot then some f else slotSector st ino t := by
    intro t
    by_cases ht : t = slot
    · subst ht
      rw [if_pos rfl]
      unfold slotSector slotSectorAux
      simp only [if_pos hslot, hdir2]
      rw [getD_set_self _ _ _ _ (by rw [hwf.dirLen]; exact hslot)]
      rw [if_neg hfNO]
    · rw [if_neg ht]
      unfold slotSector slotSectorAux
      by_cases htd : t < NUM_DIRECT
      · simp only [if_pos htd, hdir2]
        rw [getD_set_ne _ _ _ _ _ ht]
      · simp only [if_neg htd, hind2, h2n]
  have hindE : ∀ i, indEntry st2 ino i = indEntry st ino i := by
    intro i; unfold indEntry; rw [hind2]
  have hdata : ∀ s, (st2.data s).length = BLOCK_SECTOR_SIZE := by
    intro s
    simp only [h2d]
    by_cases hs : s = f
    · simp [hs]
    · simp only [if_neg hs]
      exact hwf.dataLen s
  have hwf2 : Wf st2 ino := by
    refine wf_of_slot_update st st2 ino slot f hwf hS hfr hflt (by rw [h2f, hfb]) hindE
      hdata (by rw [h2n]; exact hwf.nodeLen) ?_ (by rw [hind2]; exact hwf.indLen)
    rw [hdir2]
    simp [hwf.dirLen]
  refine ⟨hwf2, ?_, ?_, ?_, ?_, ?_, ?_, ?_⟩
  · rw [hS slot, if_pos rfl]
  · intro t ht
    rw [hS t, if_neg ht]
  · intro a ha
    simp only [h2d]
    rw [if_neg (fresh_ne st.freeBits f a hfr ha)]
  · rw [h2i]; simp
  · rw [h2i]; simp
  · intro b hb
    rw [h2f, hfb]
    exact getD_set_true _ _ _ hb
  · rw [h2f, hfb]; simp

theorem ND_eq : NUM_DIRECT = 186 := rfl

theorem IND_eq : INDIRECT_NUM_DIRECT = 256 := rfl

theorem NI_eq : NUM_INDIRECT = 64 := rfl

theorem BSS_eq : BLOCK_SECTOR_SIZE = 512 := rfl

theorem slotSector_direct (st : FsSt) (ino t : Nat) (htd : t < NUM_DIRECT) :
    slotSector st ino t =
      (if (st.inodes ino).direct.getD t NO_SECTOR = NO_SECTOR then none
       else some ((st.inodes ino).direct.getD t NO_SECTOR)) := by
  unfold slotSector slotSectorAux
  simp only [if_pos htd]

theorem slotSector_indirect (st : FsSt) (ino t : Nat) (htd : ¬ t < NUM_DIRECT) :
    slotSector st ino t =
      (if indEntry st ino ((t - NUM_DIRECT) / INDIRECT_NUM_DIRECT) = NO_SECTOR then none
       else if (st.nodes (indEntry st ino ((t - NUM_DIRECT) / INDIRECT_NUM_DIRECT))).getD
           ((t - NUM_DIRECT) % INDIRECT_NUM_DIRECT) NO_SECTOR = NO_SECTOR then none
       else some ((st.nodes (indEntry st ino ((t - NUM_DIRECT) / INDIRECT_NUM_DIRECT))).getD
           ((t - NUM_DIRECT) % INDIRECT_NUM_DIRECT) NO_SECTOR)) := by
  unfold slotSector slotSectorAux indEntry
  simp only [if_neg htd]

/-- Effect of the indirect-child allocation inside byte_to_sector (the
    allocating branch of subnodeStep): the fresh sector f is recorded at
    child index j of the indirect node at nodeSec (recorded in indirect
    entry i) and zero-filled; every other slot is untouched. -/
theorem shapeB_spec (st st2 : FsSt) (ino i j nodeSec f : Nat) (fb : List Bool)
    (hwf : Wf st ino)
    (hi : i < NUM_INDIRECT) (hj : j < INDIRECT_NUM_DIRECT)
    (hie : indEntry st ino i = nodeSec) (hieNO : nodeSec ≠ NO_SECTOR)
    (hget : free_map_get st.freeBits = some (f, fb))
    (h2i : st2.inodes = st.inodes)
    (h2n : st2.nodes = fun s => if s = nodeSec then (st.nodes nodeSec).set j f
      else st.nodes s)
    (h2d : st2.data = fun s => if s = f then List.replicate BLOCK_SECTOR_SIZE 0
      else st.data s)
    (h2f : st2.freeBits = fb) :
    Wf st2 ino ∧
    slotSector st2 ino (NUM_DIRECT + INDIRECT_NUM_DIRECT * i + j) = some f ∧
    (∀ t, t ≠ NUM_DIRECT + INDIRECT_NUM_DIRECT * i + j →
      slotSector st2 ino t = slotSector st ino t) ∧
    (∀ a, st.freeBits.getD a false = true → st2.data a = st.data a) ∧
    (st2.inodes ino).length = (st.inodes ino).length ∧
    (st2.inodes ino).counter = (st.inodes ino).counter ∧
    (∀ b, st.freeBits.getD b false = true → st2.freeBits.getD b false = true) ∧
    st2.freeBits.length = st.freeBits.length := by
  obtain ⟨hfb, hflt, hfr, _⟩ := free_map_get_spec st.freeBits f fb hget
  have hfNO : f ≠ NO_SECTOR := by
    have := hwf.bitsLe
    unfold NO_SECTOR
    omega
  set slot := NUM_DIRECT + INDIRECT_NUM_DIRECT * i + j with hslotdef
  have hindE : ∀ i', indEntry st2 ino i' = indEntry st ino i' := by
    intro i'; unfold indEntry; rw [h2i]
  have hnode2 : ∀ s, st2.nodes s = if s = nodeSec then (st.nodes nodeSec).set j f
      else st.nodes s := by
    intro s; rw [h2n]
  have hij_slot : ∀ t, ¬ t < NUM_DIRECT →
      ((t - NUM_DIRECT) / INDIRECT_NUM_DIRECT = i ∧
       (t - NUM_DIRECT) % INDIRECT_NUM_DIRECT = j ↔ t = slot) := by
    intro t htd
    simp only [hslotdef, ND_eq, IND_eq] at *
    constructor
    · rintro ⟨h1, h2⟩
      omega
    · intro h
      subst h
      omega
  have hS : ∀ t, slotSector st2 ino t = if t = slot then some f else slotSector st ino t := by
    intro t
    by_cases htd : t < NUM_DIRECT
    · have htns : t ≠ slot := by
        simp only [hslotdef, ND_eq, IND_eq] at *
        omega
      rw [if_neg htns, slotSector_direct st ino t htd, slotSector_direct st2 ino t htd, h2i]
    · have hiff := hij_slot t htd
      by_cases hie' : indEntry st ino ((t - NUM_DIRECT) / INDIRECT_NUM_DIRECT) = NO_SECTOR
      · have htns : t ≠ slot := fun he => by
          rw [(hiff.mpr he).1, hie] at hie'
          exact hieNO hie'
        rw [if_neg htns, slotSector_indirect st ino t htd, slotSector_indirect st2 ino t htd,
            hindE, if_pos hie', if_pos hie']
      · have hi'lt : (t - NUM_DIRECT) / INDIRECT_NUM_DIRECT < NUM_INDIRECT := by
          have h := getD_ne_default (st.inodes ino).indirect _ NO_SECTOR hie'
          rw [hwf.indLen] at h
          exact h
        rw [slotSector_indirect st ino t htd, slotSector_indirect st2 ino t htd, hindE,
            if_neg hie', if_neg hie', hnode2]
        by_cases hsec : indEntry st ino ((t - NUM_DIRECT) / INDIRECT_NUM_DIRECT) = nodeSec
        · rw [if_pos hsec]
          have hii : (t - NUM_DIRECT) / INDIRECT_NUM_DIRECT = i :=
            hwf.indInj _ i hi'lt hi hie' (by rw [hie]; exact hieNO) (by rw [hsec, hie])
          by_cases hjj : (t - NUM_DIRECT) % INDIRECT_NUM_DIRECT = j
          · have hts : t = slot := hiff.mp ⟨hii, hjj⟩
            rw [if_pos hts, hjj, getD_set_self _ _ _ _ (by rw [hwf.nodeLen]; exact hj),
                if_neg hfNO]
          · have htns : t ≠ slot := fun he => hjj (hiff.mpr he).2
            rw [if_neg htns, getD_set_ne _ _ _ _ _ hjj, hsec]
        · rw [if_neg hsec]
          have htns : t ≠ slot := fun he => by
            rw [(hiff.mpr he).1, hie] at hsec
            exact hsec rfl
          rw [if_neg htns]
  have hdata : ∀ s, (st2.data s).length = BLOCK_SECTOR_SIZE := by
    intro s
    simp only [h2d]
    by_cases hs : s = f
    · simp [hs]
    · simp only [if_neg hs]
      exact hwf.dataLen s
  have hnl : ∀ s, (st2.nodes s).length = INDIRECT_NUM_DIRECT := by
    intro s
    rw [hnode2]
    by_cases hs : s = nodeSec
    · rw [if_pos hs]
      simp [hwf.nodeLen]
    · rw [if_neg hs]
      exact hwf.nodeLen s
  have hwf2 : Wf st2 ino := by
    refine wf_of_slot_update st st2 ino slot f hwf hS hfr hflt (by rw [h2f, hfb]) hindE
      hdata hnl (by rw [h2i]; exact hwf.dirLen) (by rw [h2i]; exact hwf.indLen)
  refine ⟨hwf2, ?_, ?_, ?_, ?_, ?_, ?_, ?_⟩
  · rw [hS slot, if_pos rfl]
  · intro t ht
    rw [hS t, if_neg ht]
  · intro a ha
    simp only [h2d]
    rw [if_neg (fresh_ne st.freeBits f a hfr ha)]
  · rw [h2i]
  · rw [h2i]
  · intro b hb
    rw [h2f, hfb]
    exact getD_set_true _ _ _ hb
  · rw [h2f, hfb]; simp

/-- Effect of installing a fresh indirect node inside byte_to_sector: the
    fresh sector f is recorded in the previously empty indirect entry i and
    its children are initialized to NO_SECTOR, so no slot lookup changes. -/
theorem shapeC_spec (st st2 : FsSt) (ino i f : Nat) (fb : List Bool)
    (hwf : Wf st ino) (hi : i < NUM_INDIRECT)
    (hempty : indEntry st ino i = NO_SECTOR)
    (hget : free_map_get st.freeBits = some (f, fb))
    (h2i : st2.inodes = fun s => if s = ino then
        { st.inodes ino with indirect := (st.inodes ino).indirect.set i f }
      else st.inodes s)
    (h2n : st2.nodes = fun s => if s = f then List.replicate INDIRECT_NUM_DIRECT NO_SECTOR
      else st.nodes s)
    (h2d : st2.data = st.data)
    (h2f : st2.freeBits = fb) :
    Wf st2 ino ∧
    (∀ t, slotSector st2 ino t = slotSector st ino t) ∧
    indEntry st2 ino i = f ∧ f ≠ NO_SECTOR ∧
    st2.nodes f = List.replicate INDIRECT_NUM_DIRECT NO_SECTOR ∧
    (st2.inodes ino).length = (st.inodes ino).length ∧
    (st2.inodes ino).counter = (st.inodes ino).counter ∧
    (∀ b, st.freeBits.getD b false = true → st2.freeBits.getD b false = true) ∧
    st2.freeBits.length = st.freeBits.length := by
  obtain ⟨hfb, hflt, hfr, _⟩ := free_map_get_spec st.freeBits f fb hget
  have hfNO : f ≠ NO_SECTOR := by
    have := hwf.bitsLe
    unfold NO_SECTOR
    omega
  have hdir2 : (st2.inodes ino).direct = (st.inodes ino).direct := by
    rw [h2i]; simp
  have hind2 : (st2.inodes ino).indirect = (st.inodes ino).indirect.set i f := by
    rw [h2i]; simp
  have hnode2 : ∀ s, st2.nodes s =
      if s = f then List.replicate INDIRECT_NUM_DIRECT NO_SECTOR else st.nodes s := by
    intro s; rw [h2n]
  have hindE : ∀ i', indEntry st2 ino i' =
      if i' = i then f else indEntry st ino i' := by
    intro i'
    unfold indEntry
    rw [hind2]
    by_cases hii : i' = i
    · rw [if_pos hii, hii, getD_set_self _ _ _ _ (by rw [hwf.indLen]; exact hi)]
    · rw [if_neg hii, getD_set_ne _ _ _ _ _ hii]
  have hS : ∀ t, slotSector st2 ino t = slotSector st ino t := by
    intro t
    by_cases htd : t < NUM_DIRECT
    · rw [slotSector_direct st ino t htd, slotSector_direct st2 ino t htd, hdir2]
    · rw [slotSector_indirect st ino t htd, slotSector_indirect st2 ino t htd, hindE]
      by_cases hii : (t - NUM_DIRECT) / INDIRECT_NUM_DIRECT = i
      · rw [if_pos hii, hii, hempty, if_neg hfNO, hnode2, if_pos rfl]
        rw [getD_replicate, if_pos rfl]
        rw [if_pos rfl]
      · rw [if_neg hii]
        by_cases hie' : indEntry st ino ((t - NUM_DIRECT) / INDIRECT_NUM_DIRECT) = NO_SECTOR
        · rw [if_pos hie', if_pos hie']
        · have hi'lt : (t - NUM_DIRECT) / INDIRECT_NUM_DIRECT < NUM_INDIRECT := by
            have h := getD_ne_default (st.inodes ino).indirect _ NO_SECTOR hie'
            rw [hwf.indLen] at h
            exact h
          have hnef : indEntry st ino ((t - NUM_DIRECT) / INDIRECT_NUM_DIRECT) ≠ f :=
            fresh_ne st.freeBits f _ hfr (hwf.indMark _ hi'lt hie')
          rw [if_neg hie', if_neg hie', hnode2, if_neg hnef]
  have hdata : ∀ s, (st2.data s).length = BLOCK_SECTOR_SIZE := by
    intro s; rw [h2d]; exact hwf.dataLen s
  have hnl : ∀ s, (st2.nodes s).length = INDIRECT_NUM_DIRECT := by
    intro s
    rw [hnode2]
    by_cases hs : s = f
    · rw [if_pos hs]; simp
    · rw [if_neg hs]; exact hwf.nodeLen s
  have hwf2 : Wf st2 ino := by
    refine wf_of_ind_install st st2 ino i f hwf hS hindE hfr hflt (by rw [h2f, hfb])
      hdata hnl (by rw [hdir2]; exact hwf.dirLen) ?_
    rw [hind2]
    simp [hwf.indLen]
  refine ⟨hwf2, hS, ?_, hfNO, ?_, ?_, ?_, ?_, ?_⟩
  · rw [hindE i, if_pos rfl]
  · rw [hnode2, if_pos rfl]
  · rw [h2i]; simp
  · rw [h2i]; simp
  · intro b hb
    rw [h2f, hfb]
    exact getD_set_true _ _ _ hb
  · rw [h2f, hfb]; simp

/-- Specification of subnodeStep with create=true on an already-installed
    indirect node (recorded in indirect entry i), when it returns a sector. -/
theorem subnode_exists_path (st : FsSt) (ino i j nodeSec : Nat) (s : Nat) (st' : FsSt)
    (hwf : Wf st ino) (hi : i < NUM_INDIRECT) (hj : j < INDIRECT_NUM_DIRECT)
    (hie : indEntry st ino i = nodeSec) (hieNO : nodeSec ≠ NO_SECTOR)
    (heq : subnodeStep st nodeSec j true = (some s, st')) :
    Wf st' ino ∧
    slotSector st' ino (NUM_DIRECT + INDIRECT_NUM_DIRECT * i + j) = some s ∧
    (∀ t, t ≠ NUM_DIRECT + INDIRECT_NUM_DIRECT * i + j →
      slotSector st' ino t = slotSector st ino t) ∧
    (∀ a, st.freeBits.getD a false = true → st'.data a = st.data a) ∧
    (st'.inodes ino).length = (st.inodes ino).length ∧
    (st'.inodes ino).counter = (st.inodes ino).counter ∧
    (∀ b, st.freeBits.getD b false = true → st'.freeBits.getD b false = true) ∧
    st'.freeBits.length = st.freeBits.length := by
  unfold subnodeStep at heq
  simp only [eq_self_iff_true, true_and, and_true] at heq
  by_cases hchild : (st.nodes nodeSec).getD j NO_SECTOR = NO_SECTOR
  · rw [if_pos hchild] at heq
    cases hget : free_map_get st.freeBits with
    | none =>
      rw [hget] at heq
      exact absurd (congrArg Prod.fst heq) (by simp)
    | some p =>
      obtain ⟨f, fb⟩ := p
      rw [hget] at heq
      injection heq with h1 h2
      injection h1 with h1
      subst h1
      subst h2
      exact shapeB_spec st _ ino i j nodeSec f fb hwf hi hj hie hieNO hget rfl rfl rfl rfl
  · rw [if_neg hchild, if_pos hchild] at heq
    injection heq with h1 h2
    injection h1 with h1
    subst h1
    subst h2
    have hnd : ¬ NUM_DIRECT + INDIRECT_NUM_DIRECT * i + j < NUM_DIRECT := by
      simp only [ND_eq, IND_eq]
      omega
    have hii : (NUM_DIRECT + INDIRECT_NUM_DIRECT * i + j - NUM_DIRECT)
        / INDIRECT_NUM_DIRECT = i := by
      simp only [ND_eq, IND_eq] at hj ⊢
      omega
    have hjj : (NUM_DIRECT + INDIRECT_NUM_DIRECT * i + j - NUM_DIRECT)
        % INDIRECT_NUM_DIRECT = j := by
      simp only [ND_eq, IND_eq] at hj ⊢
      omega
    refine ⟨hwf, ?_, fun t _ => rfl, fun a _ => rfl, rfl, rfl, fun b hb => hb, rfl⟩
    rw [slotSector_indirect st ino _ hnd, hii, hjj, hie, if_neg hieNO, if_neg hchild]

/-- Specification of the fresh-indirect-node path of byte_to_sector: the
    intermediate state ST1 has the fresh node f installed in indirect entry
    i; subnodeStep then allocates the child. -/
theorem subnode_fresh_path (st ST1 : FsSt) (ino i j f : Nat) (fb : List Bool)
    (s : Nat) (st' : FsSt)
    (hwf : Wf st ino) (hi : i < NUM_INDIRECT) (hj : j < INDIRECT_NUM_DIRECT)
    (hie : indEntry st ino i = NO_SECTOR)
    (hget : free_map_get st.freeBits = some (f, fb))
    (h1i : ST1.inodes = fun s2 => if s2 = ino then
        { st.inodes ino with indirect := (st.inodes ino).indirect.set i f }
      else st.inodes s2)
    (h1n : ST1.nodes = fun s2 => if s2 = f then List.replicate INDIRECT_NUM_DIRECT NO_SECTOR
      else st.nodes s2)
    (h1d : ST1.data = st.data) (h1f : ST1.freeBits = fb)
    (heq : subnodeStep ST1 f j true = (some s, st')) :
    Wf st' ino ∧
    slotSector st' ino (NUM_DIRECT + INDIRECT_NUM_DIRECT * i + j) = some s ∧
    (∀ t, t ≠ NUM_DIRECT + INDIRECT_NUM_DIRECT * i + j →
      slotSector st' ino t = slotSector st ino t) ∧
    (∀ a, st.freeBits.getD a false = true → st'.data a = st.data a) ∧
    (st'.inodes ino).length = (st.inodes ino).length ∧
    (st'.inodes ino).counter = (st.inodes ino).counter ∧
    (∀ b, st.freeBits.getD b false = true → st'.freeBits.getD b false = true) ∧
    st'.freeBits.length = st.freeBits.length := by
  obtain ⟨hwf1, hS1, hie1, hfNO, hrepl, hlen1, hctr1, hmono1, hblen1⟩ :=
    shapeC_spec st ST1 ino i f fb hwf hi hie hget h1i h1n h1d h1f
  unfold subnodeStep at heq
  simp only [eq_self_iff_true, true_and, and_true] at heq
  rw [hrepl, getD_replicate] at heq
  rw [if_pos rfl] at heq
  cases hget2 : free_map_get ST1.freeBits with
  | none =>
    rw [hget2] at heq
    exact absurd (congrArg Prod.fst heq) (by simp)
  | some p =>
    obtain ⟨f2, fb2⟩ := p
    rw [hget2] at heq
    injection heq with h1 h2
    injection h1 with h1
    subst h1
    have hB := shapeB_spec ST1 st' ino i j f f2 fb2 hwf1 hi hj hie1 hfNO hget2
      (by rw [← h2]) (by rw [← h2, hrepl]) (by rw [← h2]) (by rw [← h2])
    obtain ⟨hwf2, hs2, hfr2, hdat2, hlen2, hctr2, hmono2, hblen2⟩ := hB
    refine ⟨hwf2, hs2, ?_, ?_, by rw [hlen2, hlen1], by rw [hctr2, hctr1],
      fun b hb => hmono2 b (hmono1 b hb), by rw [hblen2, hblen1]⟩
    · intro t ht
      rw [hfr2 t ht, hS1 t]
    · intro a ha
      rw [hdat2 a (hmono1 a ha), h1d]

/-- Combined specification of byte_to_sector with create=true when it
    returns a sector: the sector is recorded for the requested slot, all
    other slots are unchanged, the contents of every sector marked in the
    free map are unchanged, the header is unchanged, already-set free map
    bits stay set, and well-formedness is preserved. -/
theorem byte_to_sector_create_spec (st : FsSt) (ino pos : Nat) (s : Nat) (st' : FsSt)
    (hwf : Wf st ino)
    (hpos : pos / BLOCK_SECTOR_SIZE < NUM_DIRECT + NUM_INDIRECT * INDIRECT_NUM_DIRECT)
    (heq : byte_to_sector st ino pos true = (some s, st')) :
    Wf st' ino ∧ slotSector st' ino (pos / BLOCK_SECTOR_SIZE) = some s ∧
    (∀ t, t ≠ pos / BLOCK_SECTOR_SIZE → slotSector st' ino t = slotSector st ino t) ∧
    (∀ a, st.freeBits.getD a false = true → st'.data a = st.data a) ∧
    (st'.inodes ino).length = (st.inodes ino).length ∧
    (st'.inodes ino).counter = (st.inodes ino).counter ∧
    (∀ b, st.freeBits.getD b false = true → st'.freeBits.getD b false = true) ∧
    st'.freeBits.length = st.freeBits.length := by
  unfold byte_to_sector at heq
  simp only [eq_self_iff_true, true_and, and_true] at heq
  by_cases hsl : pos / BLOCK_SECTOR_SIZE < NUM_DIRECT
  · rw [if_pos hsl] at heq
    by_cases hemp : (st.inodes ino).direct.getD (pos / BLOCK_SECTOR_SIZE) NO_SECTOR
        = NO_SECTOR
    · rw [if_pos hemp] at heq
      cases hget : free_map_get st.freeBits with
      | none =>
        rw [hget] at heq
        exact absurd (congrArg Prod.fst heq) (by simp)
      | some p =>
        obtain ⟨f, fb⟩ := p
        rw [hget] at heq
        injection heq with h1 h2
        injection h1 with h1
        subst h1
        exact shapeA_spec st st' ino (pos / BLOCK_SECTOR_SIZE) f fb hwf hsl hget
          (by rw [← h2]) (by rw [← h2]) (by rw [← h2]) (by rw [← h2])
    · rw [if_neg hemp, if_pos hemp] at heq
      injection heq with h1 h2
      injection h1 with h1
      subst h1
      subst h2
      refine ⟨hwf, ?_, fun t _ => rfl, fun a _ => rfl, rfl, rfl, fun b hb => hb, rfl⟩
      rw [slotSector_direct st ino _ hsl, if_neg hemp]
  · rw [if_neg hsl] at heq
    have hi_lt : (pos / BLOCK_SECTOR_SIZE - NUM_DIRECT) / INDIRECT_NUM_DIRECT
        < NUM_INDIRECT := by
      simp only [ND_eq, IND_eq, NI_eq] at hpos ⊢
      omega
    have hj_lt : (pos / BLOCK_SECTOR_SIZE - NUM_DIRECT) % INDIRECT_NUM_DIRECT
        < INDIRECT_NUM_DIRECT := by
      simp only [IND_eq]
      omega
    have hterm : NUM_DIRECT
        + INDIRECT_NUM_DIRECT * ((pos / BLOCK_SECTOR_SIZE - NUM_DIRECT) / INDIRECT_NUM_DIRECT)
        + (pos / BLOCK_SECTOR_SIZE - NUM_DIRECT) % INDIRECT_NUM_DIRECT
        = pos / BLOCK_SECTOR_SIZE := by
      simp only [ND_eq, IND_eq] at hsl ⊢
      omega
    by_cases hie : (st.inodes ino).indirect.getD
        ((pos / BLOCK_SECTOR_SIZE - NUM_DIRECT) / INDIRECT_NUM_DIRECT) NO_SECTOR
        = NO_SECTOR
    · rw [if_pos hie] at heq
      cases hget : free_map_get st.freeBits with
      | none =>
        rw [hget] at heq
        exact absurd (congrArg Prod.fst heq) (by simp)
      | some p =>
        obtain ⟨f, fb⟩ := p
        rw [hget] at heq
        have hpath := subnode_fresh_path st
          { st with
            inodes := fun s2 => if s2 = ino then
                { st.inodes ino with indirect := (st.inodes ino).indirect.set ((pos / BLOCK_SECTOR_SIZE - NUM_DIRECT) / INDIRECT_NUM_DIRECT) f }
              else st.inodes s2,
            nodes := fun s2 => if s2 = f then List.replicate INDIRECT_NUM_DIRECT NO_SECTOR
              else st.nodes s2,
            freeBits := fb }
          ino
          ((pos / BLOCK_SECTOR_SIZE - NUM_DIRECT) / INDIRECT_NUM_DIRECT)
          ((pos / BLOCK_SECTOR_SIZE - NUM_DIRECT) % INDIRECT_NUM_DIRECT)
          f fb s st' hwf hi_lt hj_lt hie hget rfl rfl rfl rfl heq
        rw [hterm] at hpath
        exact hpath
    · rw [if_neg hie, if_pos hie] at heq
      have hpath := subnode_exists_path st ino
        ((pos / BLOCK_SECTOR_SIZE - NUM_DIRECT) / INDIRECT_NUM_DIRECT)
        ((pos / BLOCK_SECTOR_SIZE - NUM_DIRECT) % INDIRECT_NUM_DIRECT)
        ((st.inodes ino).indirect.getD
          ((pos / BLOCK_SECTOR_SIZE - NUM_DIRECT) / INDIRECT_NUM_DIRECT) NO_SECTOR)
        s st' hwf hi_lt hj_lt rfl hie heq
      rw [hterm] at hpath
      exact hpath

theorem bits_after_get (bits fb : List Bool) (f : Nat)
    (hget : free_map_get bits = some (f, fb)) :
    (∀ b, bits.getD b false = true → fb.getD b false = true) ∧
      fb.length = bits.length := by
  obtain ⟨hfb, hflt, _, _⟩ := free_map_get_spec bits f fb hget
  subst hfb
  exact ⟨fun b hb => getD_set_true _ _ _ hb, by simp⟩

/-- subnodeStep never touches the inode table and only ever marks free map
    bits. -/
theorem subnodeStep_header (st : FsSt) (nodeSec j : Nat) (c : Bool) (r : Option Nat)
    (st' : FsSt) (heq : subnodeStep st nodeSec j c = (r, st')) :
    st'.inodes = st.inodes ∧
    (∀ b, st.freeBits.getD b false = true → st'.freeBits.getD b false = true) ∧
    st'.freeBits.length = st.freeBits.length := by
  unfold subnodeStep at heq
  simp only [] at heq
  split at heq
  · split at heq
    next f fb hget =>
      injection heq with h1 h2
      subst h2
      exact ⟨rfl, (bits_after_get st.freeBits fb f hget).1, (bits_after_get st.freeBits fb f hget).2⟩
    next hget =>
      injection heq with h1 h2
      subst h2
      exact ⟨rfl, fun b hb => hb, rfl⟩
  · split at heq
    · injection heq with h1 h2
      subst h2
      exact ⟨rfl, fun b hb => hb, rfl⟩
    · injection heq with h1 h2
      subst h2
      exact ⟨rfl, fun b hb => hb, rfl⟩

/-- byte_to_sector (with any create flag, any outcome) never changes the
    inode header (length, counter) and only ever marks free map bits. -/
theorem byte_to_sector_header (st : FsSt) (ino pos : Nat) (c : Bool) (r : Option Nat)
    (st' : FsSt) (heq : byte_to_sector st ino pos c = (r, st')) :
    (st'.inodes ino).length = (st.inodes ino).length ∧
    (st'.inodes ino).counter = (st.inodes ino).counter ∧
    (∀ b, st.freeBits.getD b false = true → st'.freeBits.getD b false = true) ∧
    st'.freeBits.length = st.freeBits.length := by
  unfold byte_to_sector at heq
  simp only [] at heq
  split at heq
  · split at heq
    · split at heq
      next f fb hget =>
        injection heq with h1 h2
        subst h2
        obtain ⟨hmono, hblen⟩ := bits_after_get st.freeBits fb f hget
        exact ⟨by simp, by simp, hmono, hblen⟩
      next hget =>
        injection heq with h1 h2
        subst h2
        exact ⟨rfl, rfl, fun b hb => hb, rfl⟩
    · split at heq
      · injection heq with h1 h2
        subst h2
        exact ⟨rfl, rfl, fun b hb => hb, rfl⟩
      · injection heq with h1 h2
        subst h2
        exact ⟨rfl, rfl, fun b hb => hb, rfl⟩
  · split at heq
    · split at heq
      next f fb hget =>
        obtain ⟨hin, hmono2, hblen2⟩ := subnodeStep_header _ _ _ _ _ _ heq
        obtain ⟨hmono1, hblen1⟩ := bits_after_get st.freeBits fb f hget
        have hl : (st'.inodes ino).length = (st.inodes ino).length := by
          rw [congrFun hin ino]
          simp
        have hc : (st'.inodes ino).counter = (st.inodes ino).counter := by
          rw [congrFun hin ino]
          simp
        exact ⟨hl, hc, fun b hb => hmono2 b (hmono1 b hb), by rw [hblen2]; exact hblen1⟩
      next hget =>
        injection heq with h1 h2
        subst h2
        exact ⟨rfl, rfl, fun b hb => hb, rfl⟩
    · split at heq
      · obtain ⟨hin, hmono2, hblen2⟩ := subnodeStep_header _ _ _ _ _ _ heq
        exact ⟨by rw [congrFun hin ino], by rw [congrFun hin ino], hmono2, hblen2⟩
      · injection heq with h1 h2
        subst h2
        exact ⟨rfl, rfl, fun b hb => hb, rfl⟩

theorem write_loop_zero (st : FsSt) (ino : Nat) (buf : List Nat) (fuel offset bw : Nat) :
    write_loop st ino buf fuel 0 offset bw = (bw, st) := by
  cases fuel <;> rfl

/-- A state change that keeps the index structures, the free map, and the
    data sector a byte lives in keeps that logical byte. -/
theorem logicalByte_frame (stA stB : FsSt) (ino : Nat) (o : Nat)
    (hframe : slotSector stB ino (o / BLOCK_SECTOR_SIZE)
      = slotSector stA ino (o / BLOCK_SECTOR_SIZE))
    (hdata : ∀ a, slotSector stA ino (o / BLOCK_SECTOR_SIZE) = some a →
      stB.data a = stA.data a) :
    logicalByte stB ino o = logicalByte stA ino o := by
  unfold logicalByte
  rw [hframe]
  cases hs : slotSector stA ino (o / BLOCK_SECTOR_SIZE) with
  | none => rfl
  | some a =>
    show (stB.data a).getD (o % BLOCK_SECTOR_SIZE) 0
      = (stA.data a).getD (o % BLOCK_SECTOR_SIZE) 0
    rw [hdata a hs]

/-- Well-formedness only constrains the data map through sector sizes, so a
    data-only update with sector-sized contents preserves it. -/
theorem wf_data_update (st st2 : FsSt) (ino : Nat) (hwf : Wf st ino)
    (h2i : st2.inodes = st.inodes) (h2n : st2.nodes = st.nodes)
    (h2f : st2.freeBits = st.freeBits)
    (hdl : ∀ s, (st2.data s).length = BLOCK_SECTOR_SIZE) : Wf st2 ino := by
  have hS : ∀ t, slotSector st2 ino t = slotSector st ino t := by
    intro t
    unfold slotSector
    rw [h2i, h2n]
  have hindE : ∀ i, indEntry st2 ino i = indEntry st ino i := by
    intro i
    unfold indEntry
    rw [h2i]
  refine ⟨hdl, by rw [h2n]; exact hwf.nodeLen, by rw [h2i]; exact hwf.dirLen,
    by rw [h2i]; exact hwf.indLen, by rw [h2f]; exact hwf.bitsLe,
    by rw [h2f]; exact hwf.inoMark, ?_, ?_, ?_, ?_, ?_, ?_, ?_⟩
  · intro i hi hne
    rw [hindE i] at hne ⊢
    rw [h2f]
    exact hwf.indMark i hi hne
  · intro t a ha
    rw [hS t] at ha
    rw [h2f]
    exact hwf.slotMark t a ha
  · intro t u a ht hu
    rw [hS t] at ht
    rw [hS u] at hu
    exact hwf.slotInj t u a ht hu
  · intro i j hi hj hni hnj hij
    rw [hindE i] at hni hij
    rw [hindE j] at hnj hij
    exact hwf.indInj i j hi hj hni hnj hij
  · intro t a i ha hi hne
    rw [hS t] at ha
    rw [hindE i] at hne ⊢
    exact hwf.slotInd t a i ha hi hne
  · intro t a ha
    rw [hS t] at ha
    exact hwf.slotIno t a ha
  · intro i hi hne
    rw [hindE i] at hne ⊢
    exact hwf.indIno i hi hne

/-- Facts about the state after one chunk write: the new sector contents at
    the written range are the corresponding buffer bytes, all other logical
    bytes survive, and well-formedness is preserved. -/
theorem writeStep_spec (st1 : FsSt) (ino s : Nat) (buf : List Nat) (offset bw chunk : Nat)
    (hwf1 : Wf st1 ino)
    (hslot1 : slotSector st1 ino (offset / BLOCK_SECTOR_SIZE) = some s)
    (hc1 : 0 < chunk)
    (hofs : offset % BLOCK_SECTOR_SIZE + chunk ≤ BLOCK_SECTOR_SIZE)
    (hbuf : bw + chunk ≤ buf.length) :
    Wf (writeStep st1 s buf offset bw chunk) ino ∧
    (∀ k, k < chunk →
      logicalByte (writeStep st1 s buf offset bw chunk) ino (offset + k)
        = buf.getD (bw + k) 0) ∧
    (∀ o, o / BLOCK_SECTOR_SIZE ≠ offset / BLOCK_SECTOR_SIZE →
      logicalByte (writeStep st1 s buf offset bw chunk) ino o = logicalByte st1 ino o) ∧
    (writeStep st1 s buf offset bw chunk).inodes = st1.inodes ∧
    (writeStep st1 s buf offset bw chunk).freeBits = st1.freeBits := by
  have h512 : BLOCK_SECTOR_SIZE = 512 := rfl
  have hplen : ((buf.drop bw).take chunk).length = chunk := by
    simp
    omega
  have hnewlen : ∀ x, ((writeStep st1 s buf offset bw chunk).data x).length
      = BLOCK_SECTOR_SIZE := by
    intro x
    unfold writeStep
    by_cases hx : x = s
    · simp only [if_pos hx]
      by_cases hfast : offset % BLOCK_SECTOR_SIZE = 0 ∧ chunk = BLOCK_SECTOR_SIZE
      · rw [if_pos hfast]
        simp
        omega
      · rw [if_neg hfast]
        rw [listSplice_length _ _ _ (by rw [hplen, hwf1.dataLen s]; omega)]
        exact hwf1.dataLen s
    · simp only [if_neg hx]
      exact hwf1.dataLen x
  have hwf2 : Wf (writeStep st1 s buf offset bw chunk) ino :=
    wf_data_update st1 _ ino hwf1 rfl rfl rfl hnewlen
  have hdats : (writeStep st1 s buf offset bw chunk).data s =
      (if offset % BLOCK_SECTOR_SIZE = 0 ∧ chunk = BLOCK_SECTOR_SIZE then
        (buf.drop bw).take BLOCK_SECTOR_SIZE
      else listSplice (st1.data s) (offset % BLOCK_SECTOR_SIZE) ((buf.drop bw).take chunk)) := by
    unfold writeStep
    simp
  have hdato : ∀ x, x ≠ s → (writeStep st1 s buf offset bw chunk).data x = st1.data x := by
    intro x hx
    unfold writeStep
    simp only [if_neg hx]
  refine ⟨hwf2, ?_, ?_, rfl, rfl⟩
  · intro k hk
    have hdiv : (offset + k) / BLOCK_SECTOR_SIZE = offset / BLOCK_SECTOR_SIZE := by
      rw [h512] at hofs ⊢
      omega
    have hmod : (offset + k) % BLOCK_SECTOR_SIZE = offset % BLOCK_SECTOR_SIZE + k := by
      rw [h512] at hofs ⊢
      omega
    unfold logicalByte
    rw [hdiv, hmod]
    have hSs : slotSector (writeStep st1 s buf offset bw chunk) ino
        (offset / BLOCK_SECTOR_SIZE) = some s := by
      unfold slotSector at hslot1 ⊢
      exact hslot1
    rw [hSs]
    show ((writeStep st1 s buf offset bw chunk).data s).getD
      (offset % BLOCK_SECTOR_SIZE + k) 0 = buf.getD (bw + k) 0
    rw [hdats]
    by_cases hfast : offset % BLOCK_SECTOR_SIZE = 0 ∧ chunk = BLOCK_SECTOR_SIZE
    · rw [if_pos hfast, hfast.1]
      simp only [Nat.zero_add]
      rw [getD_take _ _ _ _ (by omega), getD_drop]
    · rw [if_neg hfast]
      rw [getD_splice_in _ _ _ _ _ (by rw [hplen]; exact hk)
        (by rw [hwf1.dataLen s]; omega)]
      rw [getD_take _ _ _ _ hk, getD_drop]
  · intro o ho
    refine logicalByte_frame st1 _ ino o rfl ?_
    intro a ha
    refine hdato a ?_
    intro has
    subst has
    exact ho (hwf1.slotInj _ _ a ha hslot1)

/-- Master specification of the write loop when every chunk succeeds (the
    returned bytes_written equals the requested size): well-formedness is
    preserved, logical bytes in sectors before the written range survive,
    and the written range holds the buffer bytes. -/
theorem write_loop_spec (ino : Nat) (buf : List Nat) :
    ∀ fuel size offset bw st st',
      Wf st ino → size < fuel → bw + size ≤ buf.length →
      offset + size ≤ MAX_FILE_BYTES →
      write_loop st ino buf fuel size offset bw = (bw + size, st') →
      Wf st' ino ∧
      (∀ o, o / BLOCK_SECTOR_SIZE < offset / BLOCK_SECTOR_SIZE →
        logicalByte st' ino o = logicalByte st ino o) ∧
      (∀ k, k < size → logicalByte st' ino (offset + k) = buf.getD (bw + k) 0) ∧
      (st'.inodes ino).length = (st.inodes ino).length ∧
      (∀ b, st.freeBits.getD b false = true → st'.freeBits.getD b false = true) := by
  intro fuel
  induction fuel with
  | zero =>
    intro size offset bw st st' _ hs _ _ _
    omega
  | succ f ih =>
    intro size offset bw st st' hwf hs hbuf hmax heq
    match size with
    | 0 =>
      rw [write_loop_zero] at heq
      injection heq with h1 h2
      subst h2
      exact ⟨hwf, fun o _ => rfl, fun k hk => by omega, rfl, fun b hb => hb⟩
    | sz + 1 =>
      have h512 : BLOCK_SECTOR_SIZE = 512 := rfl
      cases hbts : byte_to_sector st ino offset true with
      | mk r st1 =>
        cases r with
        | none =>
          simp only [write_loop, hbts] at heq
          have h1 : bw = bw + (sz + 1) := congrArg Prod.fst heq
          omega
        | some s =>
          simp only [write_loop, hbts] at heq
          set c := min (sz + 1) (BLOCK_SECTOR_SIZE - offset % BLOCK_SECTOR_SIZE) with hcdef
          have hcdef' : c = min (sz + 1) (512 - offset % 512) := by rw [hcdef, h512]
          have hc1 : 0 < c := by omega
          have hcle : c ≤ sz + 1 := by omega
          have hofs : offset % BLOCK_SECTOR_SIZE + c ≤ BLOCK_SECTOR_SIZE := by
            rw [h512]
            omega
          have hpos : offset / BLOCK_SECTOR_SIZE
              < NUM_DIRECT + NUM_INDIRECT * INDIRECT_NUM_DIRECT := by
            have hm := hmax
            simp only [MAX_FILE_BYTES, ND_eq, NI_eq, IND_eq, BSS_eq] at hm ⊢
            omega
          obtain ⟨hwf1, hslot1, hframe1, hdata1, hlen1, hctr1, hmono1, hblen1⟩ :=
            byte_to_sector_create_spec st ino offset s st1 hwf hpos hbts
          have hlb1 : ∀ o, o / BLOCK_SECTOR_SIZE ≠ offset / BLOCK_SECTOR_SIZE →
              logicalByte st1 ino o = logicalByte st ino o := by
            intro o ho
            refine logicalByte_frame st st1 ino o (hframe1 _ ho) ?_
            intro a ha
            exact hdata1 a (hwf.slotMark _ a ha)
          obtain ⟨hwfS, hwroteS, hframeS, hinoS, hbitsS⟩ :=
            writeStep_spec st1 ino s buf offset bw c hwf1 hslot1 hc1 hofs (by omega)
          have hlb2 : ∀ o, o / BLOCK_SECTOR_SIZE ≠ offset / BLOCK_SECTOR_SIZE →
              logicalByte (writeStep st1 s buf offset bw c) ino o = logicalByte st ino o :=
            fun o ho => (hframeS o ho).trans (hlb1 o ho)
          have hlenS : ((writeStep st1 s buf offset bw c).inodes ino).length
              = (st.inodes ino).length := by
            rw [congrFun hinoS ino]
            exact hlen1
          have hmonoS : ∀ b, st.freeBits.getD b false = true →
              (writeStep st1 s buf offset bw c).freeBits.getD b false = true := by
            intro b hb
            rw [hbitsS]
            exact hmono1 b hb
          by_cases hrem : sz + 1 - c = 0
          · rw [hrem, write_loop_zero] at heq
            injection heq with h1 h2
            subst h2
            refine ⟨hwfS, ?_, ?_, hlenS, hmonoS⟩
            · intro o ho
              exact hlb2 o (by omega)
            · intro k hk
              exact hwroteS k (by omega)
          · have hcsl : c = BLOCK_SECTOR_SIZE - offset % BLOCK_SECTOR_SIZE := by
              rw [h512]
              omega
            have hdivsucc : (offset + c) / BLOCK_SECTOR_SIZE
                = offset / BLOCK_SECTOR_SIZE + 1 := by
              rw [h512]
              rw [h512] at hcsl
              omega
            have heq' : write_loop (writeStep st1 s buf offset bw c) ino buf f
                (sz + 1 - c) (offset + c) (bw + c) = (bw + c + (sz + 1 - c), st') := by
              rw [show bw + c + (sz + 1 - c) = bw + (sz + 1) by omega]
              exact heq
            obtain ⟨hwf', hframe', hwrote', hlen', hmono'⟩ :=
              ih (sz + 1 - c) (offset + c) (bw + c) _ st' hwfS (by omega) (by omega)
                (by omega) heq'
            refine ⟨hwf', ?_, ?_, by rw [hlen']; exact hlenS,
              fun b hb => hmono' b (hmonoS b hb)⟩
            · intro o ho
              rw [hframe' o (by omega), hlb2 o (by omega)]
            · intro k hk
              by_cases hkc : k < c
              · have hdk : (offset + k) / BLOCK_SECTOR_SIZE = offset / BLOCK_SECTOR_SIZE := by
                  rw [h512]
                  rw [h512] at hofs
                  omega
                rw [hframe' (offset + k) (by rw [hdk]; omega)]
                exact hwroteS k hkc
              · have hthis := hwrote' (k - c) (by omega)
                rw [show offset + c + (k - c) = offset + k by omega,
                    show bw + c + (k - c) = bw + k by omega] at hthis
                exact hthis

/-- The write loop, on any outcome, preserves the inode header (length and
    counter) and only ever marks free map bits. -/
theorem write_loop_header (ino : Nat) (buf : List Nat) :
    ∀ fuel size offset bw st,
      ((write_loop st ino buf fuel size offset bw).2.inodes ino).length
        = (st.inodes ino).length ∧
      ((write_loop st ino buf fuel size offset bw).2.inodes ino).counter
        = (st.inodes ino).counter ∧
      (∀ b, st.freeBits.getD b false = true →
        (write_loop st ino buf fuel size offset bw).2.freeBits.getD b false = true) := by
  intro fuel
  induction fuel with
  | zero => intro size offset bw st; exact ⟨rfl, rfl, fun b hb => hb⟩
  | succ f ih =>
    intro size offset bw st
    match size with
    | 0 => exact ⟨rfl, rfl, fun b hb => hb⟩
    | sz + 1 =>
      cases hbts : byte_to_sector st ino offset true with
      | mk r st1 =>
        obtain ⟨hlen, hctr, hmono, _⟩ := byte_to_sector_header st ino offset true r st1 hbts
        cases r with
        | none =>
          simp only [write_loop, hbts]
          exact ⟨hlen, hctr, hmono⟩
        | some s =>
          simp only [write_loop, hbts]
          obtain ⟨ih1, ih2, ih3⟩ := ih (sz + 1 - min (sz + 1) (BLOCK_SECTOR_SIZE - offset % BLOCK_SECTOR_SIZE))
            (offset + min (sz + 1) (BLOCK_SECTOR_SIZE - offset % BLOCK_SECTOR_SIZE))
            (bw + min (sz + 1) (BLOCK_SECTOR_SIZE - offset % BLOCK_SECTOR_SIZE))
            (writeStep st1 s buf offset bw (min (sz + 1) (BLOCK_SECTOR_SIZE - offset % BLOCK_SECTOR_SIZE)))
          exact ⟨ih1.trans hlen, ih2.trans hctr, fun b hb => ih3 b (hmono b hb)⟩

/-- Unfolding of inode_write_at without deny_write: the loop result followed
    by the conditional length growth. -/
theorem inode_write_at_eq (st : FsSt) (ino : Nat) (buf : List Nat) (size offset : Nat) :
    inode_write_at st ino buf size offset false
      = ((write_loop st ino buf (size + 1) size offset 0).1,
         if ((write_loop st ino buf (size + 1) size offset 0).2.inodes ino).length
             < offset + (write_loop st ino buf (size + 1) size offset 0).1 then
           { (write_loop st ino buf (size + 1) size offset 0).2 with
             inodes := fun s =>
               if s = ino then
                 { (write_loop st ino buf (size + 1) size offset 0).2.inodes ino with
                   length := offset + (write_loop st ino buf (size + 1) size offset 0).1 }
               else (write_loop st ino buf (size + 1) size offset 0).2.inodes s }
         else (write_loop st ino buf (size + 1) size offset 0).2) := rfl

/-- Growing the stored length does not move any logical byte: the index
    structures and the data sectors are untouched. -/
theorem logicalByte_hdr (stA : FsSt) (ino L off : Nat) :
    logicalByte { stA with inodes := fun s =>
        if s = ino then { stA.inodes ino with length := L } else stA.inodes s } ino off
      = logicalByte stA ino off := by
  have h1 : ({ stA with inodes := fun s =>
      if s = ino then { stA.inodes ino with length := L } else stA.inodes s } : FsSt).inodes ino
      = { stA.inodes ino with length := L } := by
    simp
  unfold logicalByte slotSector slotSectorAux
  rw [h1]

/-- An inode whose index tables are entirely NO_SECTOR records no sector at
    any slot. -/
theorem slotSectorAux_empty (d : InodeDisk) (nodes : Nat → List Nat)
    (hdir : ∀ i, d.direct.getD i NO_SECTOR = NO_SECTOR)
    (hind : ∀ i, d.indirect.getD i NO_SECTOR = NO_SECTOR) (t : Nat) :
    slotSectorAux d nodes t = none := by
  unfold slotSectorAux
  by_cases h : t < NUM_DIRECT
  · rw [if_pos h]
    simp only [hdir]
    simp
  · rw [if_neg h]
    simp only [hind]
    simp

/-- Releasing a single allocated sector clears its bit. -/
theorem release_one_clears (bits : List Bool) (sec : Nat) (fb' : List Bool)
    (h : free_map_release bits sec 1 = some fb') : fb'.getD sec false = false := by
  obtain ⟨hfb, hall⟩ := free_map_release_some bits sec 1 fb' h
  have hsec : bits.getD sec false = true := by simpa using hall 0 (by omega)
  subst hfb
  exact getD_setMultiple_in bits sec 1 false sec (Nat.le_refl sec) (by omega)
    (getD_true_lt bits sec hsec)

/-- The state on which the first write will allocate is well-formed. -/
theorem wf_stW : Wf stW 0 := by
  have hslot : ∀ t, slotSector stW 0 t = none := fun t =>
    slotSectorAux_empty (stW.inodes 0) stW.nodes
      (fun i => getD_replicate NUM_DIRECT i NO_SECTOR)
      (fun i => getD_replicate NUM_INDIRECT i NO_SECTOR) t
  have hemp : ∀ i, indEntry stW 0 i = NO_SECTOR :=
    fun i => getD_replicate NUM_INDIRECT i NO_SECTOR
  refine ⟨fun s => by simp [stW, fsEmpty], fun s => by simp [stW, fsEmpty],
    by simp [stW, fsEmpty, emptyInode], by simp [stW, fsEmpty, emptyInode],
    by decide, by decide,
    fun i _ hne => absurd (hemp i) hne,
    fun t a hs => absurd hs (by rw [hslot t]; simp),
    fun t u a hs hu => absurd hs (by rw [hslot t]; simp),
    fun i j _ _ hne _ _ => absurd (hemp i) hne,
    fun t a i hs _ _ => absurd hs (by rw [hslot t]; simp),
    fun t a hs => absurd hs (by rw [hslot t]; simp),
    fun i _ hne => absurd (hemp i) hne⟩

/-- Effect of the conditional length growth after the write loop on the
    stored length: it becomes the maximum of the old length and the final
    offset. -/
theorem length_after_growth (R : Nat × FsSt) (ino offset : Nat) :
    (((if (R.2.inodes ino).length < offset + R.1 then
        { R.2 with inodes := fun s =>
            if s = ino then { R.2.inodes ino with length := offset + R.1 }
            else R.2.inodes s }
      else R.2) : FsSt).inodes ino).length
      = max (R.2.inodes ino).length (offset + R.1) := by
  by_cases hc : (R.2.inodes ino).length < offset + R.1
  · rw [if_pos hc]
    simp
    omega
  · rw [if_neg hc]
    omega

/-- C2: if inode_write_at(i, buf, n, off) reports n bytes written, an
    immediately following inode_read_at(i, buf2, n, off) reports n bytes
    read and returns exactly the bytes of buf. -/
theorem claim_C2 (st : FsSt) (ino : Nat) (buf : List Nat) (size offset : Nat) (st' : FsSt)
    (hwf : Wf st ino) (hbuf : buf.length = size) (hmax : offset + size ≤ MAX_FILE_BYTES)
    (heq : inode_write_at st ino buf size offset false = (size, st')) :
    inode_read_at st' ino size offset = (size, buf) := by
  rw [inode_write_at_eq] at heq
  set R := write_loop st ino buf (size + 1) size offset 0 with hRdef
  injection heq with h1 h2
  have hR : write_loop st ino buf (size + 1) size offset 0 = (0 + size, R.2) := by
    rw [Nat.zero_add]
    conv_rhs => rw [← h1]
  obtain ⟨hwf', hframe', hwrote', hlen', hmono'⟩ :=
    write_loop_spec ino buf (size + 1) size offset 0 st R.2 hwf (by omega) (by omega) hmax hR
  have hmain : (∀ s, st'.data s = R.2.data s) ∧
      (∀ o, logicalByte st' ino o = logicalByte R.2 ino o) ∧
      offset + size ≤ (st'.inodes ino).length := by
    by_cases hc : (R.2.inodes ino).length < offset + R.1
    · rw [if_pos hc] at h2
      refine ⟨fun s2 => by rw [← h2], fun o => ?_, ?_⟩
      · rw [← h2]
        exact logicalByte_hdr R.2 ino (offset + R.1) o
      · have hlen2 : (st'.inodes ino).length = offset + R.1 := by
          rw [← h2]
          show ((if ino = ino then { R.2.inodes ino with length := offset + R.1 } else R.2.inodes ino) : InodeDisk).length = offset + R.1
          rw [if_pos rfl]
        rw [hlen2]
        omega
    · rw [if_neg hc] at h2
      refine ⟨fun s2 => by rw [← h2], fun o => by rw [← h2], ?_⟩
      rw [← h2]
      omega
  obtain ⟨hdata, hlb, hl2⟩ := hmain
  have hd : ∀ s, (st'.data s).length = BLOCK_SECTOR_SIZE := by
    intro s2
    rw [hdata s2]
    exact hwf'.dataLen s2
  refine (inode_read_at_spec st' ino size offset hd hl2).trans ?_
  have hstep : ∀ k ∈ List.range size, logicalByte st' ino (offset + k) = buf.getD k 0 := by
    intro k hk
    rw [hlb]
    have h3 := hwrote' k (List.mem_range.mp hk)
    rw [Nat.zero_add] at h3
    exact h3
  rw [List.map_congr_left hstep, ← hbuf, map_getD_range]

/-- Witness for C2: on the smallest allocatable state, writing bytes
    7, 8, 9 at offset 0 reports 3 bytes and reading 3 bytes back returns
    them. -/
theorem claim_C2_witness :
    inode_read_at (inode_write_at stW 0 [7, 8, 9] 3 0 false).2 0 3 0 = (3, [7, 8, 9]) :=
  claim_C2 stW 0 [7, 8, 9] 3 0 _ wf_stW rfl (by decide) rfl

/-- C4 (amended): the stored length is monotone under writes, inode_write_at
    grows it to the final offset exactly when that exceeds the stored
    length, and at creation the stored length is the creation size (not the
    maximum offset ever written, which is 0 for a fresh inode). -/
theorem claim_C4 (st : FsSt) (ino sector : Nat) (buf : List Nat) (size offset len : Nat)
    (dw : Bool) :
    ((inode_write_at st ino buf size offset false).2.inodes ino).length
      = max (st.inodes ino).length
          (offset + (inode_write_at st ino buf size offset false).1) ∧
    (st.inodes ino).length ≤ ((inode_write_at st ino buf size offset dw).2.inodes ino).length ∧
    ((inode_create st sector len).2.inodes sector).length = len := by
  obtain ⟨hL, hC, hB⟩ := write_loop_header ino buf (size + 1) size offset 0 st
  have hmain : ((inode_write_at st ino buf size offset false).2.inodes ino).length
      = max (st.inodes ino).length
          (offset + (inode_write_at st ino buf size offset false).1) := by
    rw [inode_write_at_eq]
    have h4 := length_after_growth (write_loop st ino buf (size + 1) size offset 0) ino offset
    rw [← hL]
    exact h4
  refine ⟨hmain, ?_, by simp [inode_create]⟩
  cases dw with
  | false =>
    rw [hmain]
    exact Nat.le_max_left _ _
  | true => exact Nat.le_refl _

/-- Counterexample for C4 as stated: a freshly created inode of initial
    size 600 has stored length 600 although nothing has ever been written
    to it, so the stored length is not the maximum byte offset ever written
    since creation. -/
theorem claim_C4_counterexample :
    ((inode_create fsEmpty 5 600).2.inodes 5).length = 600 ∧ (600 : Nat) ≠ 0 := by
  constructor
  · rfl
  · decide

/-- C1: refutation. In stC1 the removed inode at sector 0 records data
    sector 3 at child index NUM_DIRECT = 186 of its indirect node at sector
    2 (a legal index, since an indirect node has INDIRECT_NUM_DIRECT = 256
    children), yet the freeing phase of inode_close leaves sector 3 marked
    allocated: its inner loop stops at NUM_DIRECT instead of
    INDIRECT_NUM_DIRECT (inode.c:291), so the data sector is leaked. -/
theorem claim_C1 :
    (stC1.inodes 0).indirect.getD 0 NO_SECTOR = 2 ∧
    (stC1.nodes 2).getD NUM_DIRECT NO_SECTOR = 3 ∧
    NUM_DIRECT < INDIRECT_NUM_DIRECT ∧
    stC1.freeBits.getD 3 false = true ∧
    inodeCloseFree stC1 0 = some [false, false, false, true, false] := by
  refine ⟨by decide, by decide, by decide, by decide, ?_⟩
  set_option maxRecDepth 100000 in decide

/-- C3: refutation. stR is a directory whose counter 30 equals its number
    of live non-dot entries, and whose single data sector is full while the
    free map has no clear bit: the next dir_add must grow the directory,
    the growth fails, dir_add reports failure -- and still increments the
    counter (directory.c:205 runs inode_counter_add before the exit label,
    outside the success check), leaving counter 31 against 30 live
    entries. -/
theorem claim_C3 :
    (stR.inodes 0).counter = 30 ∧
    dirLiveCount stR 0 = 30 ∧
    (dir_add stR 0 nmX 34 false).1 = false ∧
    ((dir_add stR 0 nmX 34 false).2.inodes 0).counter = 31 ∧
    dirLiveCount (dir_add stR 0 nmX 34 false).2 0 = 30 := by
  refine ⟨by decide, ?_, ?_, ?_, ?_⟩ <;> set_option maxRecDepth 1000000 in decide

/-- Counterexample for C5 as stated: creating directory a in the root of
    stP fails (the name already exists), filesys_create releases the inode
    sector it allocated (sector 1), but the data sector that dir_create
    allocated for the "." and ".." entries (sector 2) stays marked, so on
    failure the free map is changed by the call. -/
theorem claim_C5_counterexample :
    (filesys_create_core stP 0 nmA 0 true).map (fun p => (p.1, p.2.freeBits))
      = some (false, [true, false, true, true, true, false, false, false]) ∧
    stP.freeBits = [true, false, false, true, true, false, false, false] := by
  refine ⟨?_, by decide⟩
  set_option maxRecDepth 1000000 in decide

/-- C5 (amended): when filesys_create allocates an inode sector and then
    fails, that sector's free-map bit is clear again at return (it was
    clear before the call, free_map_get set it, and the failure path
    released it); the rest of the free map may still have changed, because
    sectors allocated while building a directory's own entries are not
    unwound. -/
theorem claim_C5 (st : FsSt) (parent : Nat) (name : List Nat) (sz : Nat) (is_dir : Bool)
    (st' : FsSt)
    (heq : filesys_create_core st parent name sz is_dir = some (false, st')) :
    ∀ sec fb, free_map_get st.freeBits = some (sec, fb) →
      st'.freeBits.getD sec false = false ∧ st.freeBits.getD sec false = false := by
  intro sec fb hget
  obtain ⟨_, _, hclear, _⟩ := free_map_get_spec st.freeBits sec fb hget
  refine ⟨?_, hclear⟩
  unfold filesys_create_core at heq
  rw [hget] at heq
  simp only [] at heq
  split at heq
  all_goals try split at heq
  all_goals try split at heq
  all_goals try split at heq
  all_goals first
    | exact absurd heq Option.noConfusion
    | (injection heq with heq1;
       injection heq1 with hfalse heq2;
       first
         | exact absurd hfalse (by decide)
         | (rw [← heq2];
            exact release_one_clears _ sec _ (by assumption)))

/-- Witness for C5: on stP the failing create_dir of the duplicate name a
    allocates inode sector 1 and releases it again: bit 1 is clear after
    the call as it was before. -/
theorem claim_C5_witness :
    ((filesys_create_core stP 0 nmA 0 true).getD (true, stP)).2.freeBits.getD 1 false = false ∧
    stP.freeBits.getD 1 false = false :=
  claim_C5 stP 0 nmA 0 true ((filesys_create_core stP 0 nmA 0 true).getD (true, stP)).2
    (by set_option maxRecDepth 1000000 in rfl) 1
    [true, true, false, true, true, false, false, false] (by decide)

/-- C6: when the name resolves to a directory entry, filesys_remove
    proceeds to remove it exactly when the in-core open count at the check
    is at most 1 and the stored counter is 0; otherwise it reports false
    and leaves the state (hence the directory entry) unchanged. -/
theorem claim_C6 (st : FsSt) (parent : Nat) (name : List Nat) (openCnt : Nat)
    (e : List Nat) (ofs : Nat)
    (hl : dirLookup st parent name = some (e, ofs)) (hd : entryIsDir e = true) :
    (¬ (openCnt ≤ 1 ∧ (st.inodes (entrySector e)).counter = 0) →
      filesys_remove_core st parent name openCnt = some (false, st)) ∧
    ((openCnt ≤ 1 ∧ (st.inodes (entrySector e)).counter = 0) →
      filesys_remove_core st parent name openCnt = dir_remove st parent name) := by
  unfold filesys_remove_core
  rw [hl]
  simp only [hd, if_true]
  constructor
  · intro hnc
    rw [if_neg hnc]
  · intro hc
    rw [if_pos hc]

/-- Witness for C6: in stQ the subdirectory d has counter 0 but an open
    count of 2 at the check, so removal is refused and the state is
    unchanged. -/
theorem claim_C6_witness :
    filesys_remove_core stQ 0 nmD 2 = some (false, stQ) :=
  (claim_C6 stQ 0 nmD 2 (encodeEntry (padName nmD) 5 true true) 32
    (by set_option maxRecDepth 1000000 in decide) (by decide)).1 (by decide)

/-- C7: a sector returned by free_map_get has its bit set in the returned
    map and was the lowest clear bit; releasing it afterwards clears the
    bit again; every sector of a range returned by free_map_allocate has
    its bit set; and free_map_release succeeds exactly when every bit in
    the released range was set (the source's assertion). -/
theorem claim_C7 (bits : List Bool) (s : Nat) (fb : List Bool)
    (hget : free_map_get bits = some (s, fb)) :
    fb.getD s false = true ∧
    bits.getD s false = false ∧
    (∀ t, t < s → bits.getD t false = true) ∧
    (∃ fb', free_map_release fb s 1 = some fb' ∧ fb'.getD s false = false) ∧
    (∀ cnt a fb2, free_map_allocate bits cnt = some (a, fb2) →
      ∀ k, k < cnt → fb2.getD (a + k) false = true) ∧
    (∀ sec cnt, (free_map_release bits sec cnt).isSome = true ↔
      ∀ k, k < cnt → bits.getD (sec + k) false = true) := by
  obtain ⟨hfb, hlt, hcl, hlow⟩ := free_map_get_spec bits s fb hget
  have hset : fb.getD s false = true := by
    rw [hfb]
    exact getD_set_self bits s true false hlt
  refine ⟨hset, hcl, hlow, ?_, ?_, ?_⟩
  · have hall : bitmapAll fb s 1 = true := by
      rw [bitmapAll_iff]
      intro k hk
      have hk0 : k = 0 := by omega
      subst hk0
      simpa using hset
    refine ⟨bitmapSetMultiple fb s 1 false, ?_, ?_⟩
    · unfold free_map_release
      rw [if_pos hall]
    · have hlen : s < fb.length := by
        rw [hfb]
        simpa using hlt
      exact getD_setMultiple_in fb s 1 false s (Nat.le_refl s) (by omega) hlen
  · intro cnt a fb2 hal k hk
    obtain ⟨hfb2, hle⟩ := free_map_allocate_some bits cnt a fb2 hal
    rw [hfb2]
    exact getD_setMultiple_in bits a cnt true (a + k) (by omega) (by omega) (by omega)
  · intro sec cnt
    exact free_map_release_isSome bits sec cnt

/-- Witness for C7 on the map [true, false, true]: free_map_get returns
    sector 1 with the bit set. -/
theorem claim_C7_witness :
    ([true, true, true] : List Bool).getD 1 false = true :=
  (claim_C7 [true, false, true] 1 [true, true, true] (by decide)).1

/-- C8: evicting a present, non-orphaned, dirty, file-backed mapping whose
    file is not writable clears hasfile and fwrite, stores the frame into
    the lowest free swap slot, and sets the swapped bit; nothing else of
    the state (in particular the backing file's bytes) changes. -/
theorem claim_C8 (st : VmSt) (slot : Nat)
    (hp : st.mapping.present = true) (hor : st.mapping.orphaned = false)
    (hhf : st.mapping.hasfile = true) (hfw : st.mapping.fwrite = false)
    (hd : st.dirty = true) (hs : bitmapLowest st.swapOcc false = some slot) :
    vm_evict_page st = some (.ok
      { st with
        mapping := { st.mapping with present := false, hasfile := false, fwrite := false, swapped := true, swap_slot := slot },
        swapOcc := st.swapOcc.set slot true,
        swapSlots := fun i => if i = slot then st.frame else st.swapSlots i }) := by
  unfold vm_evict_page swaptbl_store
  rw [hp, hor, hd]
  simp only [hhf, hfw, hs, Bool.not_true, Bool.false_eq_true, Bool.true_and,
    Bool.and_false, false_and, and_false, if_false, if_true, ite_false, ite_true,
    eq_self_iff_true, not_true, decide_True, decide_False]

/-- Witness for C8 on stV: the mapping is promoted to swap slot 0 and the
    backing file bytes are untouched. -/
theorem claim_C8_witness :
    vm_evict_page stV = some (.ok
      { stV with
        mapping := { stV.mapping with present := false, hasfile := false, fwrite := false, swapped := true, swap_slot := 0 },
        swapOcc := stV.swapOcc.set 0 true,
        swapSlots := fun i => if i = 0 then stV.frame else stV.swapSlots i }) :=
  claim_C8 stV 0 rfl rfl rfl rfl rfl rfl

/-- C9: a byte range below the stored length whose slots record no data
    sector reads back as zeros: byte_to_sector (create=false) yields none
    (the -1 sector) on every byte of the range, and inode_read_at reports
    the full size with a buffer of zero bytes. -/
theorem claim_C9 (st : FsSt) (ino size offset : Nat)
    (hd : ∀ s, (st.data s).length = BLOCK_SECTOR_SIZE)
    (hl : offset + size ≤ (st.inodes ino).length)
    (hns : ∀ k, k < size → slotSector st ino ((offset + k) / BLOCK_SECTOR_SIZE) = none) :
    inode_read_at st ino size offset = (size, List.replicate size 0) ∧
    (∀ k, k < size → (byte_to_sector st ino (offset + k) false).1 = none) := by
  constructor
  · refine (inode_read_at_spec st ino size offset hd hl).trans ?_
    have hstep : ∀ k ∈ List.range size, logicalByte st ino (offset + k) = 0 := by
      intro k hk
      unfold logicalByte
      rw [hns k (List.mem_range.mp hk)]
    rw [List.map_congr_left hstep]
    congr 1
    have h2 : (List.range size).map (fun k => (0 : Nat)) = List.replicate (List.range size).length 0 :=
      List.map_const' (List.range size) 0
    rw [h2, List.length_range]
  · intro k hk
    rw [byte_to_sector_false]
    exact hns k hk

set_option maxRecDepth 1000000 in
/-- Witness for C9: a file freshly created with size 600 has no data
    sectors, and reading 20 bytes at offset 500 returns 20 zero bytes. -/
theorem claim_C9_witness :
    inode_read_at (inode_create fsEmpty 5 600).2 5 20 500 = (20, List.replicate 20 0) :=
  (claim_C9 (inode_create fsEmpty 5 600).2 5 20 500 (fun s => rfl)
    (by decide) (by decide)).1

/-- C10: inode_create always reports success and writes an inode whose
    header carries the requested length, counter 0 and the magic marker,
    whose index entries are all NO_SECTOR; it touches no free-map bit, no
    data sector and no other inode, and the fresh inode maps no slot to a
    sector. -/
theorem claim_C10 (st : FsSt) (sector len : Nat) :
    (inode_create st sector len).1 = true ∧
    ((inode_create st sector len).2.inodes sector).length = len ∧
    ((inode_create st sector len).2.inodes sector).counter = 0 ∧
    ((inode_create st sector len).2.inodes sector).magic = INODE_MAGIC ∧
    (∀ i, ((inode_create st sector len).2.inodes sector).direct.getD i NO_SECTOR
      = NO_SECTOR) ∧
    (∀ i, ((inode_create st sector len).2.inodes sector).indirect.getD i NO_SECTOR
      = NO_SECTOR) ∧
    (inode_create st sector len).2.freeBits = st.freeBits ∧
    (inode_create st sector len).2.data = st.data ∧
    (∀ s, s ≠ sector → (inode_create st sector len).2.inodes s = st.inodes s) ∧
    (∀ t, slotSector (inode_create st sector len).2 sector t = none) := by
  have hsec : (inode_create st sector len).2.inodes sector
      = { length := len, magic := INODE_MAGIC, counter := 0,
          direct := List.replicate NUM_DIRECT NO_SECTOR,
          indirect := List.replicate NUM_INDIRECT NO_SECTOR } := by
    simp [inode_create]
  refine ⟨rfl, by rw [hsec], by rw [hsec], by rw [hsec], ?_, ?_, rfl, rfl, ?_, ?_⟩
  · intro i
    rw [hsec]
    exact getD_replicate NUM_DIRECT i NO_SECTOR
  · intro i
    rw [hsec]
    exact getD_replicate NUM_INDIRECT i NO_SECTOR
  · intro s hne
    simp [inode_create, hne]
  · intro t
    unfold slotSector
    rw [hsec]
    exact slotSectorAux_empty _ _ (fun i => getD_replicate NUM_DIRECT i NO_SECTOR)
      (fun i => getD_replicate NUM_INDIRECT i NO_SECTOR) t

/-- Witness for C10: creating an inode at sector 5 reports success and
    leaves the inode at sector 4 untouched. -/
theorem claim_C10_witness :
    (inode_create fsEmpty 5 600).1 = true ∧
    (inode_create fsEmpty 5 600).2.inodes 4 = fsEmpty.inodes 4 :=
  ⟨(claim_C10 fsEmpty 5 600).1,
   (claim_C10 fsEmpty 5 600).2.2.2.2.2.2.2.2.1 4 (by decide)⟩
